import Mathlib

/-!
Verification of the parent-line assignment algorithm of the Loongson IOINTC
interrupt-controller driver (`drivers/irqchip/irq-loongson-iointc.c`).

The function `validate_parent_mask` resolves a possibly incomplete or
inconsistent per-channel hint table (`of_parent_int_map`, four u32 bitmasks
of claimed interrupt lines) together with an availability mask
(`possible_parent_mask`, one bit per parent channel) into a total assignment
of the 32 interrupt lines to parent channels (`map_cache`).

The embedding below models u32 values as `Nat` (kept below `2 ^ 32`),
the handler maps and the map cache as functions `Nat → Nat`, the `pr_warn`
diagnostics as a collected list of events, and every argument passed to the
bit-scan primitive `__ffs` as a collected trace (so that the claim that
`__ffs` is never applied to zero can be stated).  Each `while` loop of the
source is translated as a fuel-indexed recursion returning `Option`:
`none` means the loop did not finish within the given fuel, and fuel 32 is
shown to always suffice.
-/

namespace Loongson

/-- `IOINTC_CHIP_IRQ`: number of interrupt lines. -/
def IOINTC_CHIP_IRQ : Nat := 32

/-- `IOINTC_NUM_PARENT`: number of parent channels. -/
def IOINTC_NUM_PARENT : Nat := 4

/-- `IOINTC_SHIFT_INTx`: shift of the parent-INT nibble inside a map byte. -/
def IOINTC_SHIFT_INTx : Nat := 4

/-- `BIT(x)` of the kernel headers. -/
def bit (x : Nat) : Nat := 2 ^ x

/-- Complement of a u32 value (`~x` on a 32-bit unsigned quantity). -/
def compl32 (x : Nat) : Nat := (2 ^ 32 - 1) ^^^ x

/-- Scan the bits of `x` upward from position `start` with the given fuel,
returning the first set position (or `start + fuel` when none is set). -/
def ffsFrom (x : Nat) : Nat → Nat → Nat
  | start, 0 => start
  | start, fuel + 1 => if x.testBit start then start else ffsFrom x (start + 1) fuel

/-- The kernel bit-scan primitive `__ffs`: index of the least significant set
bit of a 32-bit value.  `__ffs(0)` is undefined behaviour in the kernel; the
model returns 32 there, and the safety claim shows that case unreachable. -/
def ffs (x : Nat) : Nat := ffsFrom x 0 32

/-- Ascending list of the set bit positions (below 32) of a mask. -/
def bitsOf (m : Nat) : List Nat := (List.range 32).filter (fun b => m.testBit b)

/-- A `pr_warn` diagnostic emitted by `validate_parent_mask`: either the
homeless-line warning or the multiple-parents warning, naming the line and
the fallback channel it was mapped to. -/
inductive Event where
  | homelessWarn (line fallback : Nat)
  | multiParentWarn (line fallback : Nat)
deriving DecidableEq

/-- The mutable state of `validate_parent_mask`: the per-channel
`handler[i].parent_int_map` fields, the `map_cache` array, the emitted
diagnostics, and the trace of every argument handed to `__ffs`. -/
structure VState where
  hmap : Nat → Nat
  mapCache : Nat → Nat
  log : List Event
  ffsArgs : List Nat

/-- One iteration of the first loop of `validate_parent_mask`: skip an
unavailable parent, otherwise copy its hint mask into
`handler[i].parent_int_map` and accumulate `duplicated_mask` (bits already
in `proceed_mask`) and `proceed_mask`. -/
def setupStep (pm : Nat) (ofmap : Nat → Nat)
    (st : (Nat → Nat) × Nat × Nat) (i : Nat) : (Nat → Nat) × Nat × Nat :=
  if pm.testBit i then
    (Function.update st.1 i (ofmap i),
      st.2.1 ||| (ofmap i &&& st.2.2),
      st.2.2 ||| ofmap i)
  else st

/-- The first loop of `validate_parent_mask`: for each available parent
channel, copy its hint mask into `handler[i].parent_int_map` while
accumulating `duplicated_mask` and `proceed_mask`.  Returns the handler
maps, the duplicated mask and the proceed mask. -/
def setupMaps (pm : Nat) (ofmap : Nat → Nat) : (Nat → Nat) × Nat × Nat :=
  (List.range IOINTC_NUM_PARENT).foldl (setupStep pm ofmap) (fun _ => 0, 0, 0)

/-- The homeless-line loop: `while (~proceed_mask)` pick the lowest line with
no map bit set, warn, give it to the fallback channel and mark it claimed. -/
def homelessLoop (fb : Nat) : Nat → Nat → VState → Option VState
  | 0, proceed, s => if compl32 proceed = 0 then some s else none
  | fuel + 1, proceed, s =>
      if compl32 proceed = 0 then some s
      else
        let b := ffs (compl32 proceed)
        homelessLoop fb fuel (proceed ||| bit b)
          { s with
            hmap := Function.update s.hmap fb (s.hmap fb ||| bit b),
            log := s.log ++ [Event.homelessWarn b fb],
            ffsArgs := s.ffsArgs ++ [compl32 proceed] }

/-- The inner `for` loop of the duplicated-line step: clear the line's bit in
every parent channel's map. -/
def clearAll (h : Nat → Nat) (b : Nat) : Nat → Nat :=
  (List.range IOINTC_NUM_PARENT).foldl
    (fun h i => Function.update h i (h i &&& compl32 (bit b))) h

/-- The duplicated-line loop: `while (duplicated_mask)` pick the lowest line
claimed by several channels, warn, clear it everywhere and give it to the
fallback channel. -/
def duplicatedLoop (fb : Nat) : Nat → Nat → VState → Option VState
  | 0, dup, s => if dup = 0 then some s else none
  | fuel + 1, dup, s =>
      if dup = 0 then some s
      else
        let b := ffs dup
        let h1 := clearAll s.hmap b
        duplicatedLoop fb fuel (dup &&& compl32 (bit b))
          { s with
            hmap := Function.update h1 fb (h1 fb ||| bit b),
            log := s.log ++ [Event.multiParentWarn b fb],
            ffsArgs := s.ffsArgs ++ [dup] }

/-- The inner materialization loop: scan channel `i`'s final map and write
`BIT(i) << IOINTC_SHIFT_INTx` into `map_cache` for each set line. -/
def materializeInner (i : Nat) : Nat → Nat → VState → Option VState
  | 0, pending, s => if pending = 0 then some s else none
  | fuel + 1, pending, s =>
      if pending = 0 then some s
      else
        let b := ffs pending
        materializeInner i fuel (pending &&& compl32 (bit b))
          { s with
            mapCache := Function.update s.mapCache b (bit i <<< IOINTC_SHIFT_INTx),
            ffsArgs := s.ffsArgs ++ [pending] }

/-- The materialization step: for each parent channel in order, write its
claimed lines into the map cache. -/
def materialize (s : VState) : Option VState :=
  (List.range IOINTC_NUM_PARENT).foldlM
    (fun s i => materializeInner i 32 (s.hmap i) s) s

/-- `validate_parent_mask(priv, of_parent_int_map)` on a freshly zeroed
`priv` (as allocated by `iointc_of_init`): compute the fallback channel with
`__ffs(possible_parent_mask)`, copy the hints of the available channels,
resolve homeless and duplicated lines, and materialize the map cache. -/
def validateParentMask (pm : Nat) (ofmap : Nat → Nat) : Option VState :=
  let fb := ffs pm
  let st := setupMaps pm ofmap
  let s0 : VState :=
    { hmap := st.1, mapCache := fun _ => 0, log := [], ffsArgs := [pm] }
  (homelessLoop fb 32 st.2.2 s0).bind fun s1 =>
    (duplicatedLoop fb 32 st.2.1 s1).bind fun s2 =>
      materialize s2

/-- The configuration error of the spec: `iointc_of_init` refuses to proceed
when no parent channel is available. -/
inductive ConfigurationError where
  | noAvailableParent
deriving DecidableEq

/-- The result of a (terminating) run of `validate_parent_mask`. -/
def resolveResult (pm : Nat) (ofmap : Nat → Nat) : VState :=
  (validateParentMask pm ofmap).getD
    { hmap := fun _ => 0, mapCache := fun _ => 0, log := [], ffsArgs := [] }

/-- The `resolve` operation of the spec: the guard of `iointc_of_init`
(`if (!priv->possible_parent_mask) ...`) followed by `validate_parent_mask`. -/
def resolve (pm : Nat) (ofmap : Nat → Nat) :
    Except ConfigurationError VState :=
  if pm = 0 then Except.error ConfigurationError.noAvailableParent
  else Except.ok (resolveResult pm ofmap)

/-- The parent channel a line is assigned to by the produced map cache:
the map byte is `BIT(i) << IOINTC_SHIFT_INTx`, so shift it back down and
take the set bit's index. -/
def assignedChannel (s : VState) (line : Nat) : Nat :=
  ffs (s.mapCache line >>> IOINTC_SHIFT_INTx)

/-- Channel `c` claims line `b` in the hint table and is available. -/
def availClaims (pm : Nat) (ofmap : Nat → Nat) (c b : Nat) : Prop :=
  c < IOINTC_NUM_PARENT ∧ pm.testBit c = true ∧ (ofmap c).testBit b = true

/-- A line is homeless: no available channel claims it. -/
def IsHomeless (pm : Nat) (ofmap : Nat → Nat) (b : Nat) : Prop :=
  b < IOINTC_CHIP_IRQ ∧ ¬∃ c, availClaims pm ofmap c b

/-- A line is duplicated: at least two distinct available channels claim it. -/
def IsDuplicated (pm : Nat) (ofmap : Nat → Nat) (b : Nat) : Prop :=
  ∃ c c', c ≠ c' ∧ availClaims pm ofmap c b ∧ availClaims pm ofmap c' b

/-- `c` is the lowest-numbered member of the available set. -/
def IsLowestAvailable (pm c : Nat) : Prop :=
  pm.testBit c = true ∧ ∀ j < c, pm.testBit j = false

instance (pm : Nat) (ofmap : Nat → Nat) (c b : Nat) :
    Decidable (availClaims pm ofmap c b) :=
  decidable_of_iff
    (c < IOINTC_NUM_PARENT ∧ pm.testBit c = true ∧ (ofmap c).testBit b = true)
    Iff.rfl

instance (pm c : Nat) : Decidable (IsLowestAvailable pm c) :=
  decidable_of_iff (pm.testBit c = true ∧ ∀ j < c, pm.testBit j = false) Iff.rfl

/-- Reinterpret a produced assignment as a hint table: channel `i`'s hint
mask claims exactly the lines assigned to `i`. -/
def reinterp (s : VState) (i : Nat) : Nat :=
  (List.range 32).foldl
    (fun m b => if assignedChannel s b = i then m ||| bit b else m) 0

/-- The worked example of the spec: channel 0 claims line 5, channel 1 claims
lines 5 and 6, channels 2 and 3 claim nothing. -/
def exampleHints : Nat → Nat := fun i => if i = 0 then 32 else if i = 1 then 96 else 0

/-- A hint table in which channel 0 (which will be unavailable) and channel 2
both claim line 5. -/
def cexHints : Nat → Nat := fun i => if i = 0 then 32 else if i = 2 then 32 else 0

/-- A hint table in which only channel 1 claims anything (line 6). -/
def variantHints : Nat → Nat := fun i => if i = 1 then 64 else 0

/-! ### Facts about the bit-scan primitive -/

lemma ffsFrom_spec (x : Nat) :
    ∀ fuel start, (∃ j, start ≤ j ∧ j < start + fuel ∧ x.testBit j = true) →
      x.testBit (ffsFrom x start fuel) = true ∧
      start ≤ ffsFrom x start fuel ∧ ffsFrom x start fuel < start + fuel ∧
      ∀ j, start ≤ j → j < ffsFrom x start fuel → x.testBit j = false := by
  intro fuel
  induction fuel with
  | zero =>
    rintro start ⟨j, h1, h2, _⟩
    omega
  | succ n ih =>
    intro start hex
    by_cases hs : x.testBit start = true
    · refine ⟨by simp [ffsFrom, hs], ?_, ?_, ?_⟩ <;> simp [ffsFrom, hs] <;> omega
    · have hs' : x.testBit start = false := by
        cases h : x.testBit start
        · rfl
        · exact absurd h hs
      obtain ⟨j, hj1, hj2, hj3⟩ := hex
      have hjne : j ≠ start := by
        intro h
        rw [h] at hj3
        exact hs hj3
      have hrec := ih (start + 1) ⟨j, by omega, by omega, hj3⟩
      have heq : ffsFrom x start (n + 1) = ffsFrom x (start + 1) n := by
        simp [ffsFrom, hs']
      refine ⟨by rw [heq]; exact hrec.1, by omega, by omega, ?_⟩
      intro k hk1 hk2
      rw [heq] at hk2
      rcases Nat.eq_or_lt_of_le hk1 with h | h
      · exact h ▸ hs'
      · exact hrec.2.2.2 k h hk2

lemma exists_testBit_of_ne_zero {x : Nat} (hx : x ≠ 0) : ∃ j, x.testBit j = true := by
  by_contra hc
  push_neg at hc
  refine hx (Nat.eq_of_testBit_eq fun i => ?_)
  rw [Nat.zero_testBit]
  cases h : x.testBit i
  · rfl
  · exact absurd h (hc i)

lemma testBit_eq_false_of_ge {x j : Nat} (hx : x < 2 ^ 32) (hj : 32 ≤ j) :
    x.testBit j = false :=
  Nat.testBit_lt_two_pow (lt_of_lt_of_le hx (Nat.pow_le_pow_right (by norm_num) hj))

lemma ffs_spec {x : Nat} (hx : x ≠ 0) (hx32 : x < 2 ^ 32) :
    x.testBit (ffs x) = true ∧ ffs x < 32 ∧ ∀ j < ffs x, x.testBit j = false := by
  obtain ⟨j, hj⟩ := exists_testBit_of_ne_zero hx
  have hj32 : j < 32 := by
    by_contra h
    rw [testBit_eq_false_of_ge hx32 (by omega)] at hj
    exact Bool.false_ne_true hj
  have h := ffsFrom_spec x 32 0 ⟨j, by omega, by omega, hj⟩
  simp only [ffs]
  exact ⟨h.1, by omega, fun k hk => h.2.2.2 k (Nat.zero_le k) hk⟩

lemma ffs_two_pow {i : Nat} (hi : i < 32) : ffs (2 ^ i) = i := by
  have hne : (2 : Nat) ^ i ≠ 0 := (pow_pos (by norm_num : (0 : ℕ) < 2) i).ne'
  have h := ffs_spec hne (Nat.pow_lt_pow_right (by norm_num) hi)
  have h1 := h.1
  rw [Nat.testBit_two_pow] at h1
  exact (of_decide_eq_true h1).symm

/-! ### Facts about the 32-bit complement -/

lemma testBit_compl32 (x b : Nat) :
    (compl32 x).testBit b = ((decide (b < 32)).xor (x.testBit b)) := by
  rw [compl32, Nat.testBit_xor, Nat.testBit_two_pow_sub_one]

lemma testBit_compl32_of_lt {b : Nat} (x : Nat) (hb : b < 32) :
    (compl32 x).testBit b = !x.testBit b := by
  simp [testBit_compl32, hb]

lemma testBit_compl32_of_ge {x b : Nat} (hb : 32 ≤ b) :
    (compl32 x).testBit b = x.testBit b := by
  simp [testBit_compl32, Nat.not_lt.mpr hb]

lemma compl32_lt {x : Nat} (hx : x < 2 ^ 32) : compl32 x < 2 ^ 32 :=
  Nat.xor_lt_two_pow (by norm_num) hx

lemma compl32_eq_zero_iff {x : Nat} (hx : x < 2 ^ 32) :
    compl32 x = 0 ↔ x = 2 ^ 32 - 1 := by
  rw [compl32, Nat.xor_eq_zero]
  constructor
  · intro h
    exact h.symm
  · intro h
    exact h.symm

lemma bit_lt {b : Nat} (hb : b < 32) : bit b < 2 ^ 32 :=
  Nat.pow_lt_pow_right (by norm_num) hb

lemma testBit_bit (b j : Nat) : (bit b).testBit j = decide (b = j) := by
  simp [bit, Nat.testBit_two_pow]

lemma compl32_lor {x y : Nat} (hx : x < 2 ^ 32) (hy : y < 2 ^ 32) :
    compl32 (x ||| y) = compl32 x &&& compl32 y := by
  refine Nat.eq_of_testBit_eq fun i => ?_
  by_cases hi : i < 32
  · simp [testBit_compl32_of_lt _ hi, Nat.testBit_lor, Nat.testBit_land]
  · have h32 : 32 ≤ i := by omega
    simp [testBit_compl32_of_ge h32, Nat.testBit_lor, Nat.testBit_land,
      testBit_eq_false_of_ge hx h32, testBit_eq_false_of_ge hy h32]

/-! ### Facts about `bitsOf` -/

lemma mem_bitsOf {m b : Nat} : b ∈ bitsOf m ↔ b < 32 ∧ m.testBit b = true := by
  simp [bitsOf, List.mem_filter, List.mem_range]

lemma bitsOf_nodup (m : Nat) : (bitsOf m).Nodup :=
  (List.nodup_range 32).filter _

lemma bitsOf_length_le (m : Nat) : (bitsOf m).length ≤ 32 := by
  have := List.length_filter_le (fun b => m.testBit b) (List.range 32)
  simpa [bitsOf] using this

lemma bitsOf_zero : bitsOf 0 = [] := by
  simp [bitsOf, Nat.zero_testBit]

lemma bitsOf_eq_nil_iff {m : Nat} (hm : m < 2 ^ 32) : bitsOf m = [] ↔ m = 0 := by
  constructor
  · intro h
    refine Nat.eq_of_testBit_eq fun i => ?_
    rw [Nat.zero_testBit]
    by_cases hi : i < 32
    · cases ht : m.testBit i
      · rfl
      · exact absurd (mem_bitsOf.mpr ⟨hi, ht⟩) (by simp [h])
    · exact testBit_eq_false_of_ge hm (by omega)
  · intro h
    rw [h]
    exact bitsOf_zero

lemma filter_range_min {n : Nat} {p q : Nat → Bool} {b : Nat}
    (hbn : b < n) (hpb : p b = true) (hmin : ∀ j < b, p j = false)
    (hq : ∀ j, q j = (p j && !decide (b = j))) :
    (List.range n).filter p = b :: (List.range n).filter q := by
  induction n with
  | zero => omega
  | succ n ih =>
    rw [List.range_succ, List.filter_append, List.filter_append]
    rcases Nat.lt_or_ge b n with h | h
    · have hqn : q n = p n := by
        rw [hq n, decide_eq_false (by omega : ¬b = n)]
        simp
      rw [ih h]
      simp [List.filter_singleton, hqn]
    · have hbn' : b = n := by omega
      subst hbn'
      have h1 : (List.range b).filter p = [] := by
        rw [List.filter_eq_nil_iff]
        intro a ha
        rw [List.mem_range] at ha
        simp [hmin a ha]
      have h2 : (List.range b).filter q = [] := by
        rw [List.filter_eq_nil_iff]
        intro a ha
        rw [List.mem_range] at ha
        simp [hq a, hmin a ha]
      have h3 : [b].filter p = [b] := by
        simp [hpb]
      have h4 : [b].filter q = [] := by
        simp [hq b]
      rw [h1, h2, h3, h4]
      simp

lemma bitsOf_cons {m : Nat} (hm : m ≠ 0) (hm32 : m < 2 ^ 32) :
    bitsOf m = ffs m :: bitsOf (m &&& compl32 (bit (ffs m))) := by
  obtain ⟨hb, hb32, hmin⟩ := ffs_spec hm hm32
  refine filter_range_min hb32 hb (fun j hj => hmin j hj) fun j => ?_
  rw [Nat.testBit_land]
  by_cases hj : j < 32
  · rw [testBit_compl32_of_lt _ hj, testBit_bit]
  · rw [testBit_compl32_of_ge (by omega), testBit_bit]
    have : m.testBit j = false := testBit_eq_false_of_ge hm32 (by omega)
    simp [this]

/-! ### Small bitmask identities -/

lemma land_lt_32 {x : Nat} (hx : x < 2 ^ 32) (y : Nat) : x &&& y < 2 ^ 32 :=
  lt_of_le_of_lt Nat.and_le_left hx

lemma lor_land_compl32 {m b : Nat} (hmb : m.testBit b = true) (hm : m < 2 ^ 32)
    (hb : b < 32) : bit b ||| (m &&& compl32 (bit b)) = m := by
  refine Nat.eq_of_testBit_eq fun i => ?_
  rw [Nat.testBit_lor, Nat.testBit_land, testBit_bit]
  by_cases hib : b = i
  · subst hib
    simp [hmb]
  · by_cases hi : i < 32
    · simp [testBit_compl32_of_lt _ hi, testBit_bit, hib]
    · have hmi : m.testBit i = false := testBit_eq_false_of_ge hm (by omega)
      simp [hmi, hib]

lemma land_compl32_lor_bit {x b : Nat} (hx : x < 2 ^ 32) (hb : b < 32) :
    (x &&& compl32 (bit b)) ||| bit b = x ||| bit b := by
  refine Nat.eq_of_testBit_eq fun i => ?_
  rw [Nat.testBit_lor, Nat.testBit_lor, Nat.testBit_land, testBit_bit]
  by_cases hib : b = i
  · subst hib
    simp
  · by_cases hi : i < 32
    · simp [testBit_compl32_of_lt _ hi, testBit_bit, hib]
    · have hxi : x.testBit i = false := testBit_eq_false_of_ge hx (by omega)
      simp [hxi, hib]

lemma land_compl32_zero {x : Nat} (hx : x < 2 ^ 32) : x &&& compl32 0 = x := by
  refine Nat.eq_of_testBit_eq fun i => ?_
  rw [Nat.testBit_land]
  by_cases hi : i < 32
  · simp [testBit_compl32_of_lt _ hi, Nat.zero_testBit]
  · have hxi : x.testBit i = false := testBit_eq_false_of_ge hx (by omega)
    simp [hxi]

lemma testBit_subset_land {x y b : Nat} (h : (x &&& y).testBit b = true) :
    x.testBit b = true := by
  rw [Nat.testBit_land] at h
  exact (Bool.and_eq_true _ _ |>.mp h).1

/-! ### The homeless-line loop -/

lemma homelessLoop_eq (fb : Nat) :
    ∀ fuel proceed s, proceed < 2 ^ 32 →
      (bitsOf (compl32 proceed)).length ≤ fuel →
      ∃ s', homelessLoop fb fuel proceed s = some s' ∧
        s'.hmap = Function.update s.hmap fb (s.hmap fb ||| compl32 proceed) ∧
        s'.mapCache = s.mapCache ∧
        s'.log = s.log ++
          (bitsOf (compl32 proceed)).map (fun b => Event.homelessWarn b fb) ∧
        (∀ x ∈ s'.ffsArgs, x ∈ s.ffsArgs ∨ x ≠ 0) := by
  intro fuel
  induction fuel with
  | zero =>
    intro proceed s hp hlen
    have hnil : bitsOf (compl32 proceed) = [] := List.length_eq_zero.mp (by omega)
    have h0 : compl32 proceed = 0 := (bitsOf_eq_nil_iff (compl32_lt hp)).mp hnil
    refine ⟨s, ?_, ?_, rfl, ?_, fun x hx => Or.inl hx⟩
    · simp [homelessLoop, h0]
    · rw [h0, Nat.or_zero, Function.update_eq_self]
    · rw [hnil]
      simp
  | succ fuel ih =>
    intro proceed s hp hlen
    by_cases h0 : compl32 proceed = 0
    · have hnil : bitsOf (compl32 proceed) = [] := by
        rw [h0]
        exact bitsOf_zero
      refine ⟨s, ?_, ?_, rfl, ?_, fun x hx => Or.inl hx⟩
      · simp [homelessLoop, h0]
      · rw [h0, Nat.or_zero, Function.update_eq_self]
      · rw [hnil]
        simp
    · have hM : compl32 proceed < 2 ^ 32 := compl32_lt hp
      obtain ⟨htb, hb32, _⟩ := ffs_spec h0 hM
      have hcons := bitsOf_cons h0 hM
      set b := ffs (compl32 proceed) with hbdef
      set s1 : VState :=
        { hmap := Function.update s.hmap fb (s.hmap fb ||| bit b),
          mapCache := s.mapCache,
          log := s.log ++ [Event.homelessWarn b fb],
          ffsArgs := s.ffsArgs ++ [compl32 proceed] } with hs1def
      have hstep : homelessLoop fb (fuel + 1) proceed s =
          homelessLoop fb fuel (proceed ||| bit b) s1 := by
        rw [hs1def]
        simp [homelessLoop, h0]
      have hp' : proceed ||| bit b < 2 ^ 32 := Nat.or_lt_two_pow hp (bit_lt hb32)
      have hcompl' : compl32 (proceed ||| bit b) =
          compl32 proceed &&& compl32 (bit b) := compl32_lor hp (bit_lt hb32)
      have hlen' : (bitsOf (compl32 (proceed ||| bit b))).length ≤ fuel := by
        rw [hcompl']
        have : (bitsOf (compl32 proceed)).length =
            (bitsOf (compl32 proceed &&& compl32 (bit b))).length + 1 := by
          rw [hcons]
          simp
        omega
      obtain ⟨s', hs', h1, h2, h3, h4⟩ := ih (proceed ||| bit b) s1 hp' hlen'
      have hs1map : s1.hmap = Function.update s.hmap fb (s.hmap fb ||| bit b) := rfl
      have hs1mc : s1.mapCache = s.mapCache := rfl
      have hs1log : s1.log = s.log ++ [Event.homelessWarn b fb] := rfl
      have hs1args : s1.ffsArgs = s.ffsArgs ++ [compl32 proceed] := rfl
      refine ⟨s', by rw [hstep, hs'], ?_, by rw [h2, hs1mc], ?_, ?_⟩
      · rw [h1, hs1map, Function.update_idem, Function.update_same, hcompl',
          Nat.lor_assoc, lor_land_compl32 htb hM hb32]
      · rw [h3, hs1log, List.append_assoc, hcompl', hcons]
        simp
      · intro x hx
        rcases h4 x hx with h | h
        · rw [hs1args] at h
          rcases List.mem_append.mp h with h' | h'
          · exact Or.inl h'
          · right
            rw [List.mem_singleton.mp h']
            exact h0
        · exact Or.inr h

/-! ### The duplicated-line loop -/

lemma clearAll_apply (h : Nat → Nat) (b i : Nat) :
    clearAll h b i = if i < IOINTC_NUM_PARENT then h i &&& compl32 (bit b) else h i := by
  have hr : List.range IOINTC_NUM_PARENT = [0, 1, 2, 3] := rfl
  simp only [clearAll, hr, List.foldl]
  by_cases h4 : i < IOINTC_NUM_PARENT
  · rw [if_pos h4]
    have h4' : i < 4 := h4
    interval_cases i <;> simp [Function.update_apply]
  · rw [if_neg h4]
    have h4' : ¬i < 4 := h4
    rw [Function.update_noteq (show i ≠ 3 by omega),
      Function.update_noteq (show i ≠ 2 by omega),
      Function.update_noteq (show i ≠ 1 by omega),
      Function.update_noteq (show i ≠ 0 by omega)]

lemma duplicatedLoop_eq (fb : Nat) (hfb : fb < IOINTC_NUM_PARENT) :
    ∀ fuel dup s, dup < 2 ^ 32 → (bitsOf dup).length ≤ fuel →
      (∀ i, s.hmap i < 2 ^ 32) →
      ∃ s', duplicatedLoop fb fuel dup s = some s' ∧
        (∀ i, s'.hmap i = if i = fb then s.hmap fb ||| dup
          else if i < IOINTC_NUM_PARENT then s.hmap i &&& compl32 dup
          else s.hmap i) ∧
        s'.mapCache = s.mapCache ∧
        s'.log = s.log ++ (bitsOf dup).map (fun b => Event.multiParentWarn b fb) ∧
        (∀ x ∈ s'.ffsArgs, x ∈ s.ffsArgs ∨ x ≠ 0) := by
  have hfb4 : fb < 4 := hfb
  intro fuel
  induction fuel with
  | zero =>
    intro dup s hd hlen hh
    have hnil : bitsOf dup = [] := List.length_eq_zero.mp (by omega)
    have h0 : dup = 0 := (bitsOf_eq_nil_iff hd).mp hnil
    subst h0
    refine ⟨s, by simp [duplicatedLoop], ?_, rfl, by simp [bitsOf_zero], fun x hx => Or.inl hx⟩
    intro i
    by_cases hifb : i = fb
    · subst hifb
      simp
    · rw [if_neg hifb]
      by_cases hi4 : i < IOINTC_NUM_PARENT
      · rw [if_pos hi4, land_compl32_zero (hh i)]
      · rw [if_neg hi4]
  | succ fuel ih =>
    intro dup s hd hlen hh
    by_cases h0 : dup = 0
    · subst h0
      refine ⟨s, by simp [duplicatedLoop], ?_, rfl, by simp [bitsOf_zero], fun x hx => Or.inl hx⟩
      intro i
      by_cases hifb : i = fb
      · subst hifb
        simp
      · rw [if_neg hifb]
        by_cases hi4 : i < IOINTC_NUM_PARENT
        · rw [if_pos hi4, land_compl32_zero (hh i)]
        · rw [if_neg hi4]
    · obtain ⟨htb, hb32, _⟩ := ffs_spec h0 hd
      have hcons := bitsOf_cons h0 hd
      set b := ffs dup with hbdef
      set s1 : VState :=
        { hmap := Function.update (clearAll s.hmap b) fb
            (clearAll s.hmap b fb ||| bit b),
          mapCache := s.mapCache,
          log := s.log ++ [Event.multiParentWarn b fb],
          ffsArgs := s.ffsArgs ++ [dup] } with hs1def
      have hstep : duplicatedLoop fb (fuel + 1) dup s =
          duplicatedLoop fb fuel (dup &&& compl32 (bit b)) s1 := by
        rw [hs1def]
        simp [duplicatedLoop, h0]
      have hd' : dup &&& compl32 (bit b) < 2 ^ 32 := land_lt_32 hd _
      have hlen' : (bitsOf (dup &&& compl32 (bit b))).length ≤ fuel := by
        have : (bitsOf dup).length = (bitsOf (dup &&& compl32 (bit b))).length + 1 := by
          rw [hcons]
          simp
        omega
      have hs1map : s1.hmap = Function.update (clearAll s.hmap b) fb
          (clearAll s.hmap b fb ||| bit b) := rfl
      have hclfb : clearAll s.hmap b fb = s.hmap fb &&& compl32 (bit b) := by
        rw [clearAll_apply, if_pos hfb]
      have hh1 : ∀ i, s1.hmap i < 2 ^ 32 := by
        intro i
        rw [hs1map, Function.update_apply]
        by_cases hifb : i = fb
        · rw [if_pos hifb, hclfb]
          exact Nat.or_lt_two_pow (land_lt_32 (hh fb) _) (bit_lt hb32)
        · rw [if_neg hifb, clearAll_apply]
          by_cases hi4 : i < IOINTC_NUM_PARENT
          · rw [if_pos hi4]
            exact land_lt_32 (hh i) _
          · rw [if_neg hi4]
            exact hh i
      obtain ⟨s', hs', h1, h2, h3, h4⟩ := ih (dup &&& compl32 (bit b)) s1 hd' hlen' hh1
      have hbd : bit b ||| (dup &&& compl32 (bit b)) = dup :=
        lor_land_compl32 htb hd hb32
      refine ⟨s', by rw [hstep, hs'], ?_, by rw [h2], ?_, ?_⟩
      · intro i
        rw [h1 i]
        by_cases hifb : i = fb
        · rw [if_pos hifb, if_pos hifb, hs1map, Function.update_same, hclfb,
            land_compl32_lor_bit (hh fb) hb32, Nat.lor_assoc, hbd]
        · rw [if_neg hifb, if_neg hifb]
          by_cases hi4 : i < IOINTC_NUM_PARENT
          · rw [if_pos hi4, if_pos hi4, hs1map,
              Function.update_noteq hifb, clearAll_apply, if_pos hi4,
              Nat.land_assoc, ← compl32_lor (bit_lt hb32) hd', hbd]
          · rw [if_neg hi4, if_neg hi4, hs1map,
              Function.update_noteq hifb, clearAll_apply, if_neg hi4]
      · rw [h3]
        have hs1log : s1.log = s.log ++ [Event.multiParentWarn b fb] := rfl
        rw [hs1log, List.append_assoc, hcons]
        simp
      · intro x hx
        rcases h4 x hx with h | h
        · have h' : x ∈ s.ffsArgs ++ [dup] := h
          rcases List.mem_append.mp h' with h'' | h''
          · exact Or.inl h''
          · right
            rw [List.mem_singleton.mp h'']
            exact h0
        · exact Or.inr h

/-! ### The materialization loops -/

lemma materializeInner_eq (i : Nat) :
    ∀ fuel pending s, pending < 2 ^ 32 → (bitsOf pending).length ≤ fuel →
      ∃ s', materializeInner i fuel pending s = some s' ∧
        s'.hmap = s.hmap ∧
        (∀ b, s'.mapCache b = if pending.testBit b = true
          then bit i <<< IOINTC_SHIFT_INTx else s.mapCache b) ∧
        s'.log = s.log ∧
        (∀ x ∈ s'.ffsArgs, x ∈ s.ffsArgs ∨ x ≠ 0) := by
  intro fuel
  induction fuel with
  | zero =>
    intro pending s hp hlen
    have hnil : bitsOf pending = [] := List.length_eq_zero.mp (by omega)
    have h0 : pending = 0 := (bitsOf_eq_nil_iff hp).mp hnil
    subst h0
    refine ⟨s, by simp [materializeInner], rfl, ?_, rfl, fun x hx => Or.inl hx⟩
    intro b
    simp [Nat.zero_testBit]
  | succ fuel ih =>
    intro pending s hp hlen
    by_cases h0 : pending = 0
    · subst h0
      refine ⟨s, by simp [materializeInner], rfl, ?_, rfl, fun x hx => Or.inl hx⟩
      intro b
      simp [Nat.zero_testBit]
    · obtain ⟨htb, hb32, _⟩ := ffs_spec h0 hp
      have hcons := bitsOf_cons h0 hp
      set b0 := ffs pending with hb0def
      set s1 : VState :=
        { hmap := s.hmap,
          mapCache := Function.update s.mapCache b0 (bit i <<< IOINTC_SHIFT_INTx),
          log := s.log,
          ffsArgs := s.ffsArgs ++ [pending] } with hs1def
      have hstep : materializeInner i (fuel + 1) pending s =
          materializeInner i fuel (pending &&& compl32 (bit b0)) s1 := by
        rw [hs1def]
        simp [materializeInner, h0]
      have hp' : pending &&& compl32 (bit b0) < 2 ^ 32 := land_lt_32 hp _
      have hlen' : (bitsOf (pending &&& compl32 (bit b0))).length ≤ fuel := by
        have : (bitsOf pending).length =
            (bitsOf (pending &&& compl32 (bit b0))).length + 1 := by
          rw [hcons]
          simp
        omega
      obtain ⟨s', hs', h1, h2, h3, h4⟩ := ih (pending &&& compl32 (bit b0)) s1 hp' hlen'
      refine ⟨s', by rw [hstep, hs'], by rw [h1], ?_, by rw [h3], ?_⟩
      · intro b
        rw [h2 b]
        have hs1mc : s1.mapCache = Function.update s.mapCache b0
            (bit i <<< IOINTC_SHIFT_INTx) := rfl
        by_cases hbb : b = b0
        · have hrest : (pending &&& compl32 (bit b0)).testBit b = false := by
            rw [hbb, Nat.testBit_land, testBit_compl32_of_lt _ hb32, testBit_bit]
            simp
          rw [hrest, if_neg (by simp), hs1mc, hbb, Function.update_same, if_pos htb]
        · have hrest : (pending &&& compl32 (bit b0)).testBit b = pending.testBit b := by
            by_cases hb32' : b < 32
            · rw [Nat.testBit_land, testBit_compl32_of_lt _ hb32', testBit_bit,
                decide_eq_false (show ¬b0 = b from fun h => hbb h.symm)]
              simp
            · rw [Nat.testBit_land, testBit_eq_false_of_ge hp (by omega)]
              simp
          rw [hrest, hs1mc, Function.update_noteq hbb]
      · intro x hx
        rcases h4 x hx with h | h
        · have h' : x ∈ s.ffsArgs ++ [pending] := h
          rcases List.mem_append.mp h' with h'' | h''
          · exact Or.inl h''
          · right
            rw [List.mem_singleton.mp h'']
            exact h0
        · exact Or.inr h

lemma materialize_eq (s : VState) (hh : ∀ i, s.hmap i < 2 ^ 32) :
    ∃ s', materialize s = some s' ∧
      s'.hmap = s.hmap ∧ s'.log = s.log ∧
      (∀ b, s'.mapCache b =
        if (s.hmap 3).testBit b = true then bit 3 <<< IOINTC_SHIFT_INTx
        else if (s.hmap 2).testBit b = true then bit 2 <<< IOINTC_SHIFT_INTx
        else if (s.hmap 1).testBit b = true then bit 1 <<< IOINTC_SHIFT_INTx
        else if (s.hmap 0).testBit b = true then bit 0 <<< IOINTC_SHIFT_INTx
        else s.mapCache b) ∧
      (∀ x ∈ s'.ffsArgs, x ∈ s.ffsArgs ∨ x ≠ 0) := by
  obtain ⟨s1, he1, ha1, hm1, hl1, hf1⟩ :=
    materializeInner_eq 0 32 (s.hmap 0) s (hh 0) (bitsOf_length_le _)
  obtain ⟨s2, he2, ha2, hm2, hl2, hf2⟩ :=
    materializeInner_eq 1 32 (s1.hmap 1) s1 (by rw [ha1]; exact hh 1) (bitsOf_length_le _)
  obtain ⟨s3, he3, ha3, hm3, hl3, hf3⟩ :=
    materializeInner_eq 2 32 (s2.hmap 2) s2 (by rw [ha2, ha1]; exact hh 2) (bitsOf_length_le _)
  obtain ⟨s4, he4, ha4, hm4, hl4, hf4⟩ :=
    materializeInner_eq 3 32 (s3.hmap 3) s3 (by rw [ha3, ha2, ha1]; exact hh 3) (bitsOf_length_le _)
  have hr : List.range IOINTC_NUM_PARENT = [0, 1, 2, 3] := rfl
  have hmat : materialize s = some s4 := by
    rw [materialize, hr]
    simp only [List.foldlM_cons, List.foldlM_nil, he1, Option.bind_eq_bind,
      Option.some_bind, he2, he3, he4]
    rfl
  refine ⟨s4, hmat, by rw [ha4, ha3, ha2, ha1], by rw [hl4, hl3, hl2, hl1], ?_, ?_⟩
  · intro b
    rw [hm4 b, ha3, ha2, ha1, hm3 b, ha2, ha1, hm2 b, ha1, hm1 b]
  · intro x hx
    rcases hf4 x hx with h | h
    · rcases hf3 x h with h' | h'
      · rcases hf2 x h' with h'' | h''
        · rcases hf1 x h'' with h3 | h3
          · exact Or.inl h3
          · exact Or.inr h3
        · exact Or.inr h''
      · exact Or.inr h'
    · exact Or.inr h

/-! ### The setup loop: copying hints and computing the masks -/

lemma setup_fold (pm : Nat) (ofmap : Nat → Nat) :
    ∀ L : List Nat, L.Nodup → ∀ st : (Nat → Nat) × Nat × Nat,
      (∀ j, (L.foldl (setupStep pm ofmap) st).1 j =
        if j ∈ L ∧ pm.testBit j = true then ofmap j else st.1 j) ∧
      (∀ b, ((L.foldl (setupStep pm ofmap) st).2.2.testBit b = true ↔
        st.2.2.testBit b = true ∨
        ∃ i ∈ L, pm.testBit i = true ∧ (ofmap i).testBit b = true)) ∧
      (∀ b, ((L.foldl (setupStep pm ofmap) st).2.1.testBit b = true ↔
        st.2.1.testBit b = true ∨
        (∃ i ∈ L, pm.testBit i = true ∧ (ofmap i).testBit b = true ∧
          st.2.2.testBit b = true) ∨
        (∃ i ∈ L, ∃ j ∈ L, i ≠ j ∧ pm.testBit i = true ∧ (ofmap i).testBit b = true ∧
          pm.testBit j = true ∧ (ofmap j).testBit b = true))) := by
  intro L
  induction L with
  | nil =>
    intro _ st
    refine ⟨fun j => by simp, fun b => by simp, fun b => by simp⟩
  | cons i0 T ih =>
    intro hL st
    have hi0T : i0 ∉ T := (List.nodup_cons.mp hL).1
    have hT : T.Nodup := (List.nodup_cons.mp hL).2
    have hfold : (i0 :: T).foldl (setupStep pm ofmap) st =
        T.foldl (setupStep pm ofmap) (setupStep pm ofmap st i0) := rfl
    obtain ⟨ihm, ihp, ihd⟩ := ih hT (setupStep pm ofmap st i0)
    by_cases hpm : pm.testBit i0 = true
    · have hst : setupStep pm ofmap st i0 =
          (Function.update st.1 i0 (ofmap i0),
            st.2.1 ||| (ofmap i0 &&& st.2.2), st.2.2 ||| ofmap i0) := by
        rw [setupStep, if_pos hpm]
      refine ⟨?_, ?_, ?_⟩
      · intro j
        rw [hfold, ihm j, hst]
        by_cases hjT : j ∈ T ∧ pm.testBit j = true
        · rw [if_pos hjT, if_pos ⟨List.mem_cons_of_mem _ hjT.1, hjT.2⟩]
        · rw [if_neg hjT]
          by_cases hji : j = i0
          · subst hji
            show Function.update st.1 j (ofmap j) j = _
            rw [Function.update_same, if_pos ⟨List.mem_cons_self _ _, hpm⟩]
          · show Function.update st.1 i0 (ofmap i0) j = _
            rw [Function.update_noteq hji]
            have : ¬(j ∈ i0 :: T ∧ pm.testBit j = true) := by
              rintro ⟨hm, htb⟩
              rcases List.mem_cons.mp hm with h | h
              · exact hji h
              · exact hjT ⟨h, htb⟩
            rw [if_neg this]
      · intro b
        rw [hfold, ihp b, hst]
        show (st.2.2 ||| ofmap i0).testBit b = true ∨ _ ↔ _
        rw [Nat.testBit_lor]
        constructor
        · rintro (h | ⟨i, hiT, hac⟩)
          · rcases Bool.or_eq_true _ _ |>.mp h with h' | h'
            · exact Or.inl h'
            · exact Or.inr ⟨i0, List.mem_cons_self _ _, hpm, h'⟩
          · exact Or.inr ⟨i, List.mem_cons_of_mem _ hiT, hac⟩
        · rintro (h | ⟨i, hic, hac⟩)
          · exact Or.inl (by rw [h]; rfl)
          · rcases List.mem_cons.mp hic with h' | h'
            · subst h'
              exact Or.inl (by rw [hac.2]; simp)
            · exact Or.inr ⟨i, h', hac⟩
      · intro b
        rw [hfold, ihd b, hst]
        show (st.2.1 ||| (ofmap i0 &&& st.2.2)).testBit b = true ∨
            (∃ i ∈ T, _ ∧ _ ∧ (st.2.2 ||| ofmap i0).testBit b = true) ∨ _ ↔ _
        rw [Nat.testBit_lor, Nat.testBit_land]
        constructor
        · rintro (h | ⟨i, hiT, h1, h2, h3⟩ | ⟨i, hiT, j, hjT, hij, h1, h2, h3, h4⟩)
          · rcases Bool.or_eq_true _ _ |>.mp h with h' | h'
            · exact Or.inl h'
            · obtain ⟨hO, hP⟩ := Bool.and_eq_true _ _ |>.mp h'
              exact Or.inr (Or.inl ⟨i0, List.mem_cons_self _ _, hpm, hO, hP⟩)
          · rw [Nat.testBit_lor] at h3
            rcases Bool.or_eq_true _ _ |>.mp h3 with h' | h'
            · exact Or.inr (Or.inl ⟨i, List.mem_cons_of_mem _ hiT, h1, h2, h'⟩)
            · refine Or.inr (Or.inr ⟨i0, List.mem_cons_self _ _,
                i, List.mem_cons_of_mem _ hiT, ?_, hpm, h', h1, h2⟩)
              intro h
              exact hi0T (h ▸ hiT)
          · exact Or.inr (Or.inr ⟨i, List.mem_cons_of_mem _ hiT,
              j, List.mem_cons_of_mem _ hjT, hij, h1, h2, h3, h4⟩)
        · rintro (h | ⟨i, hic, h1, h2, h3⟩ | ⟨i, hic, j, hjc, hij, h1, h2, h3, h4⟩)
          · exact Or.inl (by rw [h]; rfl)
          · rcases List.mem_cons.mp hic with h' | h'
            · subst h'
              exact Or.inl (by rw [h2, h3]; simp)
            · exact Or.inr (Or.inl ⟨i, h', h1, h2, by rw [Nat.testBit_lor, h3]; rfl⟩)
          · rcases List.mem_cons.mp hic with hi' | hi' <;>
              rcases List.mem_cons.mp hjc with hj' | hj'
            · exact absurd (hi'.trans hj'.symm) hij
            · subst hi'
              exact Or.inr (Or.inl ⟨j, hj', h3, h4,
                by rw [Nat.testBit_lor, h2]; simp⟩)
            · subst hj'
              exact Or.inr (Or.inl ⟨i, hi', h1, h2,
                by rw [Nat.testBit_lor, h4]; simp⟩)
            · exact Or.inr (Or.inr ⟨i, hi', j, hj', hij, h1, h2, h3, h4⟩)
    · have hst : setupStep pm ofmap st i0 = st := by
        rw [setupStep, if_neg hpm]
      have hpm' : pm.testBit i0 = false := Bool.not_eq_true _ |>.mp hpm
      refine ⟨?_, ?_, ?_⟩
      · intro j
        rw [hfold, ihm j, hst]
        by_cases hjT : j ∈ T ∧ pm.testBit j = true
        · rw [if_pos hjT, if_pos ⟨List.mem_cons_of_mem _ hjT.1, hjT.2⟩]
        · rw [if_neg hjT]
          have : ¬(j ∈ i0 :: T ∧ pm.testBit j = true) := by
            rintro ⟨hm, htb⟩
            rcases List.mem_cons.mp hm with h | h
            · rw [h] at htb
              rw [htb] at hpm'
              exact absurd hpm' (by decide)
            · exact hjT ⟨h, htb⟩
          rw [if_neg this]
      · intro b
        rw [hfold, ihp b, hst]
        constructor
        · rintro (h | ⟨i, hiT, hac⟩)
          · exact Or.inl h
          · exact Or.inr ⟨i, List.mem_cons_of_mem _ hiT, hac⟩
        · rintro (h | ⟨i, hic, hac⟩)
          · exact Or.inl h
          · rcases List.mem_cons.mp hic with h' | h'
            · subst h'
              rw [hac.1] at hpm'
              exact absurd hpm' (by decide)
            · exact Or.inr ⟨i, h', hac⟩
      · intro b
        rw [hfold, ihd b, hst]
        constructor
        · rintro (h | ⟨i, hiT, h1, h2, h3⟩ | ⟨i, hiT, j, hjT, hij, h1, h2, h3, h4⟩)
          · exact Or.inl h
          · exact Or.inr (Or.inl ⟨i, List.mem_cons_of_mem _ hiT, h1, h2, h3⟩)
          · exact Or.inr (Or.inr ⟨i, List.mem_cons_of_mem _ hiT,
              j, List.mem_cons_of_mem _ hjT, hij, h1, h2, h3, h4⟩)
        · rintro (h | ⟨i, hic, h1, h2, h3⟩ | ⟨i, hic, j, hjc, hij, h1, h2, h3, h4⟩)
          · exact Or.inl h
          · rcases List.mem_cons.mp hic with h' | h'
            · subst h'
              rw [h1] at hpm'
              exact absurd hpm' (by decide)
            · exact Or.inr (Or.inl ⟨i, h', h1, h2, h3⟩)
          · rcases List.mem_cons.mp hic with hi' | hi'
            · subst hi'
              rw [h1] at hpm'
              exact absurd hpm' (by decide)
            · rcases List.mem_cons.mp hjc with hj' | hj'
              · subst hj'
                rw [h3] at hpm'
                exact absurd hpm' (by decide)
              · exact Or.inr (Or.inr ⟨i, hi', j, hj', hij, h1, h2, h3, h4⟩)

lemma mem_0123 {j : Nat} : j ∈ ([0, 1, 2, 3] : List Nat) ↔ j < 4 := by
  simp [List.mem_cons]
  omega

lemma range_parents : List.range IOINTC_NUM_PARENT = [0, 1, 2, 3] := rfl

lemma setupMaps_hmap (pm : Nat) (ofmap : Nat → Nat) (j : Nat) :
    (setupMaps pm ofmap).1 j =
      if j < IOINTC_NUM_PARENT ∧ pm.testBit j = true then ofmap j else 0 := by
  have h := (setup_fold pm ofmap [0, 1, 2, 3] (by decide) (fun _ => 0, 0, 0)).1 j
  rw [setupMaps, range_parents, h]
  by_cases hm : j ∈ ([0, 1, 2, 3] : List Nat) ∧ pm.testBit j = true
  · rw [if_pos hm, if_pos ⟨mem_0123.mp hm.1, hm.2⟩]
  · rw [if_neg hm, if_neg (fun hc => hm ⟨mem_0123.mpr hc.1, hc.2⟩)]

lemma setupMaps_proceed (pm : Nat) (ofmap : Nat → Nat) (b : Nat) :
    ((setupMaps pm ofmap).2.2.testBit b = true ↔
      ∃ c, availClaims pm ofmap c b) := by
  have h := (setup_fold pm ofmap [0, 1, 2, 3] (by decide) (fun _ => 0, 0, 0)).2.1 b
  rw [setupMaps, range_parents, h]
  constructor
  · rintro (h0 | ⟨i, hi, h1, h2⟩)
    · rw [Nat.zero_testBit] at h0
      exact absurd h0 (by decide)
    · exact ⟨i, mem_0123.mp hi, h1, h2⟩
  · rintro ⟨i, hi, h1, h2⟩
    exact Or.inr ⟨i, mem_0123.mpr hi, h1, h2⟩

lemma setupMaps_dup (pm : Nat) (ofmap : Nat → Nat) (b : Nat) :
    ((setupMaps pm ofmap).2.1.testBit b = true ↔ IsDuplicated pm ofmap b) := by
  have h := (setup_fold pm ofmap [0, 1, 2, 3] (by decide) (fun _ => 0, 0, 0)).2.2 b
  rw [setupMaps, range_parents, h]
  constructor
  · rintro (h0 | ⟨i, hi, h1, h2, h3⟩ | ⟨i, hi, j, hj, hij, h1, h2, h3, h4⟩)
    · rw [Nat.zero_testBit] at h0
      exact absurd h0 (by decide)
    · rw [Nat.zero_testBit] at h3
      exact absurd h3 (by decide)
    · exact ⟨i, j, hij, ⟨mem_0123.mp hi, h1, h2⟩, ⟨mem_0123.mp hj, h3, h4⟩⟩
  · rintro ⟨c, c', hcc, ⟨hc4, hc1, hc2⟩, ⟨hc4', hc1', hc2'⟩⟩
    exact Or.inr (Or.inr ⟨c, mem_0123.mpr hc4, c', mem_0123.mpr hc4',
      hcc, hc1, hc2, hc1', hc2'⟩)

lemma setupMaps_bounds (pm : Nat) (ofmap : Nat → Nat) (hof : ∀ i, ofmap i < 2 ^ 32) :
    (setupMaps pm ofmap).2.1 < 2 ^ 32 ∧ (setupMaps pm ofmap).2.2 < 2 ^ 32 := by
  rw [setupMaps, range_parents]
  have key : ∀ L : List Nat, ∀ st : (Nat → Nat) × Nat × Nat,
      st.2.1 < 2 ^ 32 → st.2.2 < 2 ^ 32 →
      (L.foldl (setupStep pm ofmap) st).2.1 < 2 ^ 32 ∧
      (L.foldl (setupStep pm ofmap) st).2.2 < 2 ^ 32 := by
    intro L
    induction L with
    | nil => exact fun st h1 h2 => ⟨h1, h2⟩
    | cons i0 T ih =>
      intro st h1 h2
      show (T.foldl (setupStep pm ofmap) (setupStep pm ofmap st i0)).2.1 < 2 ^ 32 ∧ _
      refine ih _ ?_ ?_
      · rw [setupStep]
        by_cases hpm : pm.testBit i0
        · rw [if_pos hpm]
          exact Nat.or_lt_two_pow h1 (land_lt_32 (hof i0) _)
        · rw [if_neg hpm]
          exact h1
      · rw [setupStep]
        by_cases hpm : pm.testBit i0
        · rw [if_pos hpm]
          exact Nat.or_lt_two_pow h2 (hof i0)
        · rw [if_neg hpm]
          exact h2
  exact key [0, 1, 2, 3] _ (by norm_num) (by norm_num)

lemma setupMaps_hmap_lt (pm : Nat) (ofmap : Nat → Nat)
    (hof : ∀ i, ofmap i < 2 ^ 32) (j : Nat) : (setupMaps pm ofmap).1 j < 2 ^ 32 := by
  rw [setupMaps_hmap]
  by_cases h : j < IOINTC_NUM_PARENT ∧ pm.testBit j = true
  · rw [if_pos h]
    exact hof j
  · rw [if_neg h]
    norm_num

lemma testBit_lt_32 {x b : Nat} (hx : x < 2 ^ 32) (h : x.testBit b = true) : b < 32 := by
  by_contra hc
  rw [testBit_eq_false_of_ge hx (by omega)] at h
  exact absurd h (by decide)

lemma availClaims_lt_32 {pm : Nat} {ofmap : Nat → Nat} {c b : Nat}
    (hof : ∀ i, ofmap i < 2 ^ 32) (h : availClaims pm ofmap c b) : b < 32 :=
  testBit_lt_32 (hof c) h.2.2

lemma isDuplicated_lt_32 {pm : Nat} {ofmap : Nat → Nat} {b : Nat}
    (hof : ∀ i, ofmap i < 2 ^ 32) (h : IsDuplicated pm ofmap b) : b < 32 := by
  obtain ⟨c, _, _, hc, _⟩ := h
  exact availClaims_lt_32 hof hc

lemma mem_bitsOf_homeless {pm : Nat} {ofmap : Nat → Nat} {b : Nat}
    (hof : ∀ i, ofmap i < 2 ^ 32) :
    b ∈ bitsOf (compl32 (setupMaps pm ofmap).2.2) ↔ IsHomeless pm ofmap b := by
  rw [mem_bitsOf, IsHomeless]
  constructor
  · rintro ⟨hb32, hc⟩
    refine ⟨hb32, fun ⟨c, hcl⟩ => ?_⟩
    rw [testBit_compl32_of_lt _ hb32, (setupMaps_proceed pm ofmap b).mpr ⟨c, hcl⟩] at hc
    exact absurd hc (by decide)
  · rintro ⟨hb32, hnc⟩
    have hb32' : b < 32 := hb32
    refine ⟨hb32', ?_⟩
    rw [testBit_compl32_of_lt _ hb32']
    cases hP : (setupMaps pm ofmap).2.2.testBit b
    · rfl
    · exact absurd ((setupMaps_proceed pm ofmap b).mp hP) hnc

lemma mem_bitsOf_dup {pm : Nat} {ofmap : Nat → Nat} {b : Nat}
    (hof : ∀ i, ofmap i < 2 ^ 32) :
    b ∈ bitsOf (setupMaps pm ofmap).2.1 ↔ IsDuplicated pm ofmap b := by
  rw [mem_bitsOf]
  constructor
  · rintro ⟨_, hc⟩
    exact (setupMaps_dup pm ofmap b).mp hc
  · intro hD
    exact ⟨isDuplicated_lt_32 hof hD, (setupMaps_dup pm ofmap b).mpr hD⟩

/-! ### The master characterization of `validate_parent_mask` -/

lemma validateParentMask_master (pm : Nat) (ofmap : Nat → Nat)
    (hpm0 : pm ≠ 0) (hpm16 : pm < 16) (hof : ∀ i, ofmap i < 2 ^ 32) :
    ∃ s, validateParentMask pm ofmap = some s ∧
      (∀ i b, ((s.hmap i).testBit b = true ↔
        (i = ffs pm ∧ b < 32 ∧
          (IsDuplicated pm ofmap b ∨ ¬∃ c, availClaims pm ofmap c b)) ∨
        (availClaims pm ofmap i b ∧ ¬IsDuplicated pm ofmap b))) ∧
      (∀ b i, (s.hmap i).testBit b = true →
        s.mapCache b = bit i <<< IOINTC_SHIFT_INTx) ∧
      (∀ b i i', (s.hmap i).testBit b = true → (s.hmap i').testBit b = true →
        i = i') ∧
      (∀ b i, (s.hmap i).testBit b = true →
        assignedChannel s b = i ∧ pm.testBit i = true ∧ i < IOINTC_NUM_PARENT) ∧
      (∀ b, b < 32 → ∃ i, (s.hmap i).testBit b = true) ∧
      (s.log = (bitsOf (compl32 (setupMaps pm ofmap).2.2)).map
          (fun b => Event.homelessWarn b (ffs pm)) ++
        (bitsOf (setupMaps pm ofmap).2.1).map
          (fun b => Event.multiParentWarn b (ffs pm))) ∧
      (∀ x ∈ s.ffsArgs, x ≠ 0) := by
  have hpm32 : pm < 2 ^ 32 := lt_trans hpm16 (by norm_num)
  obtain ⟨hfbtb, hfb32, hfbmin⟩ := ffs_spec hpm0 hpm32
  have hfb4 : ffs pm < 4 := by
    by_contra hc
    have h16 : (16 : Nat) ≤ 2 ^ ffs pm := by
      calc (16 : Nat) = 2 ^ 4 := by norm_num
      _ ≤ 2 ^ ffs pm := Nat.pow_le_pow_right (by norm_num) (by omega)
    rw [Nat.testBit_lt_two_pow (lt_of_lt_of_le hpm16 h16)] at hfbtb
    exact absurd hfbtb (by decide)
  obtain ⟨hdb, hpb⟩ := setupMaps_bounds pm ofmap hof
  have hhb := setupMaps_hmap_lt pm ofmap hof
  set s0 : VState :=
    { hmap := (setupMaps pm ofmap).1, mapCache := fun _ => 0,
      log := [], ffsArgs := [pm] } with hs0def
  obtain ⟨s1, he1, h1m, h1c, h1l, h1a⟩ :=
    homelessLoop_eq (ffs pm) 32 (setupMaps pm ofmap).2.2 s0 hpb (bitsOf_length_le _)
  have hs1b : ∀ i, s1.hmap i < 2 ^ 32 := by
    intro i
    rw [h1m, Function.update_apply]
    by_cases hi : i = ffs pm
    · rw [if_pos hi]
      exact Nat.or_lt_two_pow (hhb _) (compl32_lt hpb)
    · rw [if_neg hi]
      exact hhb i
  obtain ⟨s2, he2, h2m, h2c, h2l, h2a⟩ :=
    duplicatedLoop_eq (ffs pm) hfb4 32 (setupMaps pm ofmap).2.1 s1 hdb
      (bitsOf_length_le _) hs1b
  have hs2b : ∀ i, s2.hmap i < 2 ^ 32 := by
    intro i
    rw [h2m i]
    by_cases hi : i = ffs pm
    · rw [if_pos hi]
      exact Nat.or_lt_two_pow (hs1b _) hdb
    · rw [if_neg hi]
      by_cases hi4 : i < IOINTC_NUM_PARENT
      · rw [if_pos hi4]
        exact land_lt_32 (hs1b i) _
      · rw [if_neg hi4]
        exact hs1b i
  obtain ⟨s3, he3, h3m, h3l, h3c, h3a⟩ := materialize_eq s2 hs2b
  have hrun : validateParentMask pm ofmap = some s3 := by
    show (homelessLoop (ffs pm) 32 (setupMaps pm ofmap).2.2 s0).bind
      (fun s1 => (duplicatedLoop (ffs pm) 32 (setupMaps pm ofmap).2.1 s1).bind
        fun s2 => materialize s2) = some s3
    rw [he1, Option.some_bind, he2, Option.some_bind, he3]
  have hs1fb : s1.hmap (ffs pm) =
      (setupMaps pm ofmap).1 (ffs pm) ||| compl32 (setupMaps pm ofmap).2.2 := by
    rw [h1m, Function.update_same]
  have hs1ne : ∀ i, i ≠ ffs pm → s1.hmap i = (setupMaps pm ofmap).1 i := by
    intro i hi
    rw [h1m, Function.update_noteq hi]
  have hchar : ∀ i b, ((s3.hmap i).testBit b = true ↔
      (i = ffs pm ∧ b < 32 ∧
        (IsDuplicated pm ofmap b ∨ ¬∃ c, availClaims pm ofmap c b)) ∨
      (availClaims pm ofmap i b ∧ ¬IsDuplicated pm ofmap b)) := by
    intro i b
    rw [h3m, h2m i]
    by_cases hifb : i = ffs pm
    · rw [if_pos hifb, Nat.testBit_lor, hs1fb, Nat.testBit_lor]
      have hh0 : ((setupMaps pm ofmap).1 (ffs pm)).testBit b =
          (ofmap (ffs pm)).testBit b := by
        rw [setupMaps_hmap, if_pos ⟨hfb4, hfbtb⟩]
      rw [hh0]
      constructor
      · intro h
        rcases (Bool.or_eq_true _ _).mp h with h' | hdup
        · rcases (Bool.or_eq_true _ _).mp h' with hcl | hhom
          · have hac : availClaims pm ofmap (ffs pm) b := ⟨hfb4, hfbtb, hcl⟩
            by_cases hD : IsDuplicated pm ofmap b
            · exact Or.inl ⟨hifb, availClaims_lt_32 hof hac, Or.inl hD⟩
            · refine Or.inr ⟨?_, hD⟩
              rw [hifb]
              exact hac
          · have hb32' : b < 32 := testBit_lt_32 (compl32_lt hpb) hhom
            have hnp : (setupMaps pm ofmap).2.2.testBit b = false := by
              cases hP : (setupMaps pm ofmap).2.2.testBit b
              · rfl
              · rw [testBit_compl32_of_lt _ hb32', hP] at hhom
                exact absurd hhom (by decide)
            have hnex : ¬∃ c, availClaims pm ofmap c b := by
              rintro ⟨c, hc⟩
              rw [(setupMaps_proceed pm ofmap b).mpr ⟨c, hc⟩] at hnp
              exact absurd hnp (by decide)
            exact Or.inl ⟨hifb, hb32', Or.inr hnex⟩
        · have hD : IsDuplicated pm ofmap b := (setupMaps_dup pm ofmap b).mp hdup
          exact Or.inl ⟨hifb, isDuplicated_lt_32 hof hD, Or.inl hD⟩
      · rintro (⟨_, hb32', hcase⟩ | ⟨hac, hnD⟩)
        · rcases hcase with hD | hnex
          · rw [(setupMaps_dup pm ofmap b).mpr hD]
            simp
          · have hnp : (setupMaps pm ofmap).2.2.testBit b = false := by
              cases hP : (setupMaps pm ofmap).2.2.testBit b
              · rfl
              · exact absurd ((setupMaps_proceed pm ofmap b).mp hP) hnex
            rw [testBit_compl32_of_lt _ hb32', hnp]
            simp
        · have hcl : (ofmap (ffs pm)).testBit b = true := by
            rw [← hifb]
            exact hac.2.2
          rw [hcl]
          simp
    · rw [if_neg hifb]
      by_cases hi4 : i < IOINTC_NUM_PARENT
      · rw [if_pos hi4, Nat.testBit_land, hs1ne i hifb, setupMaps_hmap]
        constructor
        · intro h
          obtain ⟨hl, hr⟩ := (Bool.and_eq_true _ _).mp h
          by_cases hc : i < IOINTC_NUM_PARENT ∧ pm.testBit i = true
          · rw [if_pos hc] at hl
            have hb32' : b < 32 := testBit_lt_32 (hof i) hl
            have hnd : ¬IsDuplicated pm ofmap b := by
              intro hD
              rw [testBit_compl32_of_lt _ hb32',
                (setupMaps_dup pm ofmap b).mpr hD] at hr
              exact absurd hr (by decide)
            exact Or.inr ⟨⟨hi4, hc.2, hl⟩, hnd⟩
          · rw [if_neg hc, Nat.zero_testBit] at hl
            exact absurd hl (by decide)
        · rintro (⟨hieq, _, _⟩ | ⟨hac, hnD⟩)
          · exact absurd hieq hifb
          · have hb32' := availClaims_lt_32 hof hac
            rw [if_pos ⟨hi4, hac.2.1⟩, testBit_compl32_of_lt _ hb32']
            have hnd : (setupMaps pm ofmap).2.1.testBit b = false := by
              cases hD : (setupMaps pm ofmap).2.1.testBit b
              · rfl
              · exact absurd ((setupMaps_dup pm ofmap b).mp hD) hnD
            rw [hnd, hac.2.2]
            rfl
      · rw [if_neg hi4, hs1ne i hifb, setupMaps_hmap,
          if_neg (fun hc => hi4 hc.1), Nat.zero_testBit]
        constructor
        · intro h
          exact absurd h (by decide)
        · rintro (⟨hieq, _, _⟩ | ⟨hac, _⟩)
          · exact absurd hieq hifb
          · exact absurd hac.1 hi4
  have huniq : ∀ b i i', (s3.hmap i).testBit b = true →
      (s3.hmap i').testBit b = true → i = i' := by
    intro b i i' hi hi'
    rcases (hchar i b).mp hi with ⟨hie, _, hcase⟩ | ⟨hac, hnD⟩
    · rcases (hchar i' b).mp hi' with ⟨hie', _, _⟩ | ⟨hac', hnD'⟩
      · rw [hie, hie']
      · rcases hcase with hD | hnex
        · exact absurd hD hnD'
        · exact absurd ⟨i', hac'⟩ hnex
    · rcases (hchar i' b).mp hi' with ⟨hie', _, hcase'⟩ | ⟨hac', hnD'⟩
      · rcases hcase' with hD | hnex
        · exact absurd hD hnD
        · exact absurd ⟨i, hac⟩ hnex
      · by_contra hne
        exact hnD ⟨i, i', hne, hac, hac'⟩
  have hmc : ∀ b i, (s3.hmap i).testBit b = true →
      s3.mapCache b = bit i <<< IOINTC_SHIFT_INTx := by
    intro b i hi
    have hi4 : i < 4 := by
      rcases (hchar i b).mp hi with ⟨hie, _, _⟩ | ⟨hac, _⟩
      · rw [hie]
        exact hfb4
      · exact hac.1
    have e3 : ∀ k, s2.hmap k = s3.hmap k := fun k => by rw [h3m]
    have hoth : ∀ k, k ≠ i → (s3.hmap k).testBit b = false := by
      intro k hk
      cases h : (s3.hmap k).testBit b
      · rfl
      · exact absurd (huniq b k i h hi) hk
    rw [h3c b, e3 3, e3 2, e3 1, e3 0]
    interval_cases i
    · rw [hoth 3 (by decide), hoth 2 (by decide), hoth 1 (by decide), hi]
      simp
    · rw [hoth 3 (by decide), hoth 2 (by decide), hi]
      simp
    · rw [hoth 3 (by decide), hi]
      simp
    · rw [hi]
      simp
  have hasg : ∀ b i, (s3.hmap i).testBit b = true →
      assignedChannel s3 b = i ∧ pm.testBit i = true ∧ i < IOINTC_NUM_PARENT := by
    intro b i hi
    have hi4 : i < 4 := by
      rcases (hchar i b).mp hi with ⟨hie, _, _⟩ | ⟨hac, _⟩
      · rw [hie]
        exact hfb4
      · exact hac.1
    have htb : pm.testBit i = true := by
      rcases (hchar i b).mp hi with ⟨hie, _, _⟩ | ⟨hac, _⟩
      · rw [hie]
        exact hfbtb
      · exact hac.2.1
    refine ⟨?_, htb, hi4⟩
    rw [assignedChannel, hmc b i hi]
    have hsh : (bit i <<< IOINTC_SHIFT_INTx) >>> IOINTC_SHIFT_INTx = bit i := by
      rw [Nat.shiftLeft_eq, Nat.shiftRight_eq_div_pow]
      exact Nat.mul_div_cancel _ (by decide)
    rw [hsh, bit, ffs_two_pow (by omega : i < 32)]
  have hcov : ∀ b, b < 32 → ∃ i, (s3.hmap i).testBit b = true := by
    intro b hb32
    by_cases hD : IsDuplicated pm ofmap b
    · exact ⟨ffs pm, (hchar _ b).mpr (Or.inl ⟨rfl, hb32, Or.inl hD⟩)⟩
    · by_cases hcl : ∃ c, availClaims pm ofmap c b
      · obtain ⟨c, hc⟩ := hcl
        exact ⟨c, (hchar c b).mpr (Or.inr ⟨hc, hD⟩)⟩
      · exact ⟨ffs pm, (hchar _ b).mpr (Or.inl ⟨rfl, hb32, Or.inr hcl⟩)⟩
  have hlog : s3.log = (bitsOf (compl32 (setupMaps pm ofmap).2.2)).map
      (fun b => Event.homelessWarn b (ffs pm)) ++
      (bitsOf (setupMaps pm ofmap).2.1).map
        (fun b => Event.multiParentWarn b (ffs pm)) := by
    rw [h3l, h2l, h1l]
    have : s0.log = [] := rfl
    rw [this, List.nil_append]
  have hargs : ∀ x ∈ s3.ffsArgs, x ≠ 0 := by
    intro x hx
    rcases h3a x hx with h | h
    · rcases h2a x h with h' | h'
      · rcases h1a x h' with h'' | h''
        · have : x ∈ [pm] := h''
          rw [List.mem_singleton.mp this]
          exact hpm0
        · exact h''
      · exact h'
    · exact h
  exact ⟨s3, hrun, hchar, hmc, huniq, hasg, hcov, hlog, hargs⟩

/-- The result of `validate_parent_mask` under the caller's preconditions:
the fuel-bounded loops all terminate, so the run produces `resolveResult`. -/
lemma validateParentMask_eq_some (pm : Nat) (ofmap : Nat → Nat)
    (hpm0 : pm ≠ 0) (hpm16 : pm < 16) (hof : ∀ i, ofmap i < 2 ^ 32) :
    validateParentMask pm ofmap = some (resolveResult pm ofmap) := by
  obtain ⟨s, hrun, _⟩ := validateParentMask_master pm ofmap hpm0 hpm16 hof
  rw [resolveResult, hrun]
  rfl

/-- The master characterization, restated for `resolveResult`. -/
lemma resolveResult_spec (pm : Nat) (ofmap : Nat → Nat)
    (hpm0 : pm ≠ 0) (hpm16 : pm < 16) (hof : ∀ i, ofmap i < 2 ^ 32) :
    (∀ i b, (((resolveResult pm ofmap).hmap i).testBit b = true ↔
      (i = ffs pm ∧ b < 32 ∧
        (IsDuplicated pm ofmap b ∨ ¬∃ c, availClaims pm ofmap c b)) ∨
      (availClaims pm ofmap i b ∧ ¬IsDuplicated pm ofmap b))) ∧
    (∀ b i, ((resolveResult pm ofmap).hmap i).testBit b = true →
      (resolveResult pm ofmap).mapCache b = bit i <<< IOINTC_SHIFT_INTx) ∧
    (∀ b i i', ((resolveResult pm ofmap).hmap i).testBit b = true →
      ((resolveResult pm ofmap).hmap i').testBit b = true → i = i') ∧
    (∀ b i, ((resolveResult pm ofmap).hmap i).testBit b = true →
      assignedChannel (resolveResult pm ofmap) b = i ∧ pm.testBit i = true ∧
        i < IOINTC_NUM_PARENT) ∧
    (∀ b, b < 32 → ∃ i, ((resolveResult pm ofmap).hmap i).testBit b = true) ∧
    ((resolveResult pm ofmap).log =
      (bitsOf (compl32 (setupMaps pm ofmap).2.2)).map
        (fun b => Event.homelessWarn b (ffs pm)) ++
      (bitsOf (setupMaps pm ofmap).2.1).map
        (fun b => Event.multiParentWarn b (ffs pm))) ∧
    (∀ x ∈ (resolveResult pm ofmap).ffsArgs, x ≠ 0) := by
  obtain ⟨s, hrun, hrest⟩ := validateParentMask_master pm ofmap hpm0 hpm16 hof
  have hs : resolveResult pm ofmap = s := by
    rw [resolveResult, hrun]
    rfl
  rw [hs]
  exact hrest

lemma lowest_eq_ffs {pm c : Nat} (hpm0 : pm ≠ 0) (hpm32 : pm < 2 ^ 32)
    (hc : IsLowestAvailable pm c) : c = ffs pm := by
  obtain ⟨htb, h32, hmin⟩ := ffs_spec hpm0 hpm32
  rcases Nat.lt_trichotomy c (ffs pm) with h | h | h
  · have hfalse := hmin c h
    rw [hc.1] at hfalse
    exact absurd hfalse (by decide)
  · exact h
  · have hfalse := hc.2 (ffs pm) h
    rw [htb] at hfalse
    exact absurd hfalse (by decide)

lemma exampleHints_lt : ∀ i, exampleHints i < 2 ^ 32 := by
  intro i
  show (if i = 0 then 32 else if i = 1 then 96 else 0) < 2 ^ 32
  split_ifs <;> norm_num

lemma cexHints_lt : ∀ i, cexHints i < 2 ^ 32 := by
  intro i
  show (if i = 0 then 32 else if i = 2 then 32 else 0) < 2 ^ 32
  split_ifs <;> norm_num

lemma variantHints_lt : ∀ i, variantHints i < 2 ^ 32 := by
  intro i
  show (if i = 1 then 64 else 0) < 2 ^ 32
  split_ifs <;> norm_num

lemma reinterp_testBit (s : VState) (i b : Nat) :
    ((reinterp s i).testBit b = true ↔ b < 32 ∧ assignedChannel s b = i) := by
  have key : ∀ l : List Nat, ∀ m : Nat,
      ((l.foldl (fun m b => if assignedChannel s b = i then m ||| bit b else m)
        m).testBit b = true ↔
        m.testBit b = true ∨ (b ∈ l ∧ assignedChannel s b = i)) := by
    intro l
    induction l with
    | nil => intro m; simp
    | cons b0 l ih =>
      intro m
      show ((l.foldl _ (if assignedChannel s b0 = i then m ||| bit b0 else m)).testBit b
        = true ↔ _)
      rw [ih]
      by_cases hA : assignedChannel s b0 = i
      · rw [if_pos hA, Nat.testBit_lor, testBit_bit]
        constructor
        · rintro (h | h)
          · rcases (Bool.or_eq_true _ _).mp h with h' | h'
            · exact Or.inl h'
            · have hb0 : b0 = b := of_decide_eq_true h'
              exact Or.inr ⟨List.mem_cons.mpr (Or.inl hb0.symm), hb0 ▸ hA⟩
          · exact Or.inr ⟨List.mem_cons_of_mem _ h.1, h.2⟩
        · rintro (h | ⟨hm, hA'⟩)
          · exact Or.inl (by rw [h]; rfl)
          · rcases List.mem_cons.mp hm with h' | h'
            · subst h'
              exact Or.inl (by simp)
            · exact Or.inr ⟨h', hA'⟩
      · rw [if_neg hA]
        constructor
        · rintro (h | h)
          · exact Or.inl h
          · exact Or.inr ⟨List.mem_cons_of_mem _ h.1, h.2⟩
        · rintro (h | ⟨hm, hA'⟩)
          · exact Or.inl h
          · rcases List.mem_cons.mp hm with h' | h'
            · subst h'
              exact absurd hA' hA
            · exact Or.inr ⟨h', hA'⟩
  rw [reinterp, key]
  simp [Nat.zero_testBit, List.mem_range, and_comm]

lemma reinterp_lt (s : VState) (i : Nat) : reinterp s i < 2 ^ 32 := by
  have key : ∀ l : List Nat, (∀ x ∈ l, x < 32) → ∀ m : Nat, m < 2 ^ 32 →
      (l.foldl (fun m b => if assignedChannel s b = i then m ||| bit b else m) m)
        < 2 ^ 32 := by
    intro l
    induction l with
    | nil => intro _ m hm; exact hm
    | cons b0 l ih =>
      intro hb m hm
      show (l.foldl _ (if assignedChannel s b0 = i then m ||| bit b0 else m)) < 2 ^ 32
      refine ih (fun x hx => hb x (List.mem_cons_of_mem _ hx)) _ ?_
      by_cases hA : assignedChannel s b0 = i
      · rw [if_pos hA]
        exact Nat.or_lt_two_pow hm (bit_lt (hb b0 (List.mem_cons_self _ _)))
      · rw [if_neg hA]
        exact hm
  exact key (List.range 32) (fun x hx => List.mem_range.mp hx) 0 (by norm_num)

/-! ### The claims -/

/-- C1: for every hint table and every non-empty set of available parent
channels (here: `possible_parent_mask` non-zero, as built by
`iointc_of_init` from at most the four parent bits), `resolve` produces an
assignment in which every line in `[0, 32)` is mapped to exactly one parent
channel, and that channel is a member of the available set. -/
theorem claim1_total_unique_available (pm : Nat) (ofmap : Nat → Nat)
    (hpm0 : pm ≠ 0) (hpm16 : pm < 16) (hof : ∀ i, ofmap i < 2 ^ 32) :
    resolve pm ofmap = Except.ok (resolveResult pm ofmap) ∧
    ∀ b, b < IOINTC_CHIP_IRQ →
      (∃! i, ((resolveResult pm ofmap).hmap i).testBit b = true) ∧
      pm.testBit (assignedChannel (resolveResult pm ofmap) b) = true ∧
      (resolveResult pm ofmap).mapCache b =
        bit (assignedChannel (resolveResult pm ofmap) b) <<< IOINTC_SHIFT_INTx := by
  obtain ⟨hchar, hmc, huniq, hasg, hcov, hlog, hargs⟩ :=
    resolveResult_spec pm ofmap hpm0 hpm16 hof
  refine ⟨by rw [resolve, if_neg hpm0], ?_⟩
  intro b hb
  obtain ⟨i, hi⟩ := hcov b hb
  obtain ⟨hai, htbi, _⟩ := hasg b i hi
  refine ⟨⟨i, hi, fun j hj => huniq b j i hj hi⟩, ?_, ?_⟩
  · rw [hai]
    exact htbi
  · rw [hai]
    exact hmc b i hi

theorem claim1_witness :
    (15 : Nat) ≠ 0 ∧ (15 : Nat) < 16 ∧
    (resolve 15 exampleHints = Except.ok (resolveResult 15 exampleHints) ∧
    ∀ b, b < IOINTC_CHIP_IRQ →
      (∃! i, ((resolveResult 15 exampleHints).hmap i).testBit b = true) ∧
      (15 : Nat).testBit (assignedChannel (resolveResult 15 exampleHints) b) = true ∧
      (resolveResult 15 exampleHints).mapCache b =
        bit (assignedChannel (resolveResult 15 exampleHints) b) <<< IOINTC_SHIFT_INTx) :=
  ⟨by decide, by decide,
    claim1_total_unique_available 15 exampleHints (by decide) (by decide) exampleHints_lt⟩

/-- C2: `resolve` fails with `ConfigurationError` exactly when the set of
available parent channels is empty; for every input with a non-empty
available set it never fails (the underlying bounded-fuel computation also
terminates), and `ConfigurationError.noAvailableParent` is the only error
that can be raised. -/
theorem claim2_error_iff_no_available (pm : Nat) (ofmap : Nat → Nat)
    (hpm16 : pm < 16) (hof : ∀ i, ofmap i < 2 ^ 32) :
    ((resolve pm ofmap = Except.error ConfigurationError.noAvailableParent) ↔
      ¬∃ c, pm.testBit c = true) ∧
    (∀ e, resolve pm ofmap = Except.error e →
      e = ConfigurationError.noAvailableParent) ∧
    ((∃ c, pm.testBit c = true) →
      resolve pm ofmap = Except.ok (resolveResult pm ofmap)) ∧
    (∀ e : ConfigurationError, e = ConfigurationError.noAvailableParent) := by
  have hzero : pm = 0 ↔ ¬∃ c, pm.testBit c = true := by
    constructor
    · rintro rfl ⟨c, hc⟩
      rw [Nat.zero_testBit] at hc
      exact absurd hc (by decide)
    · intro h
      by_contra hne
      exact h (exists_testBit_of_ne_zero hne)
  by_cases hpm0 : pm = 0
  · rw [resolve, if_pos hpm0]
    refine ⟨?_, ?_, ?_, fun e => by cases e; rfl⟩
    · exact ⟨fun _ => hzero.mp hpm0, fun _ => rfl⟩
    · intro e he
      cases e
      rfl
    · intro hc
      exact absurd (hzero.mpr (fun h => (hzero.mp hpm0) h)) (by
        intro h
        exact (hzero.mp hpm0) hc)
  · rw [resolve, if_neg hpm0]
    refine ⟨?_, ?_, fun _ => rfl, fun e => by cases e; rfl⟩
    · constructor
      · intro h
        exact absurd h (by simp)
      · intro h
        exact absurd (hzero.mpr h) hpm0
    · intro e he
      exact absurd he (by simp)

theorem claim2_witness :
    (15 : Nat) < 16 ∧
    (((resolve 15 exampleHints =
        Except.error ConfigurationError.noAvailableParent) ↔
      ¬∃ c, (15 : Nat).testBit c = true) ∧
    (∀ e, resolve 15 exampleHints = Except.error e →
      e = ConfigurationError.noAvailableParent) ∧
    ((∃ c, (15 : Nat).testBit c = true) →
      resolve 15 exampleHints = Except.ok (resolveResult 15 exampleHints)) ∧
    (∀ e : ConfigurationError, e = ConfigurationError.noAvailableParent)) :=
  ⟨by decide, claim2_error_iff_no_available 15 exampleHints (by decide) exampleHints_lt⟩

/-- C3: for every non-empty available set, every line that is unclaimed by
any channel in the hint table is resolved to the lowest-numbered member of
the available set. -/
theorem claim3_unclaimed_gets_fallback (pm : Nat) (ofmap : Nat → Nat)
    (hpm0 : pm ≠ 0) (hpm16 : pm < 16) (hof : ∀ i, ofmap i < 2 ^ 32)
    (b : Nat) (hb : b < IOINTC_CHIP_IRQ)
    (hunclaimed : ∀ c, c < IOINTC_NUM_PARENT → (ofmap c).testBit b = false)
    (c : Nat) (hc : IsLowestAvailable pm c) :
    assignedChannel (resolveResult pm ofmap) b = c := by
  obtain ⟨hchar, hmc, huniq, hasg, hcov, hlog, hargs⟩ :=
    resolveResult_spec pm ofmap hpm0 hpm16 hof
  have hcfb : c = ffs pm :=
    lowest_eq_ffs hpm0 (lt_trans hpm16 (by norm_num)) hc
  have hnex : ¬∃ cc, availClaims pm ofmap cc b := by
    rintro ⟨cc, h4, htb, hcl⟩
    rw [hunclaimed cc h4] at hcl
    exact absurd hcl (by decide)
  have hmem := (hchar (ffs pm) b).mpr (Or.inl ⟨rfl, hb, Or.inr hnex⟩)
  rw [hcfb]
  exact (hasg b (ffs pm) hmem).1

theorem claim3_witness :
    (15 : Nat) ≠ 0 ∧
    (∀ c, c < IOINTC_NUM_PARENT → (exampleHints c).testBit 7 = false) ∧
    IsLowestAvailable 15 0 ∧
    assignedChannel (resolveResult 15 exampleHints) 7 = 0 :=
  ⟨by decide, by decide, by decide,
    claim3_unclaimed_gets_fallback 15 exampleHints (by decide) (by decide)
      exampleHints_lt 7 (by decide) (by decide) 0 (by decide)⟩

/-- C4 (counterexample): the claim as stated counts claims by *any* channel
of the hint table, but the code only consults channels of the available set.
With available = {1, 2}, line 5 claimed by channels 0 and 2 (two channels of
the hint table), the code keeps line 5 on channel 2, not on the
lowest-numbered available channel 1. -/
theorem claim4_counterexample :
    (6 : Nat) ≠ 0 ∧ (6 : Nat) < 16 ∧ (∀ i, cexHints i < 2 ^ 32) ∧
    ((cexHints 0).testBit 5 = true ∧ (cexHints 2).testBit 5 = true ∧
      (0 : Nat) < IOINTC_NUM_PARENT ∧ (2 : Nat) < IOINTC_NUM_PARENT ∧
      (0 : Nat) ≠ 2) ∧
    IsLowestAvailable 6 1 ∧
    assignedChannel (resolveResult 6 cexHints) 5 = 2 ∧ (2 : Nat) ≠ 1 :=
  ⟨by decide, by decide, cexHints_lt, by decide, by decide, by decide, by decide⟩

/-- C4 (amended): for every non-empty available set, every line that is
claimed by two or more channels **of the available set** is resolved to the
lowest-numbered member of the available set, and that line is removed from
the claim sets of every other channel. -/
theorem claim4_duplicated_gets_fallback (pm : Nat) (ofmap : Nat → Nat)
    (hpm0 : pm ≠ 0) (hpm16 : pm < 16) (hof : ∀ i, ofmap i < 2 ^ 32)
    (b : Nat) (hdup : IsDuplicated pm ofmap b)
    (c : Nat) (hc : IsLowestAvailable pm c) :
    assignedChannel (resolveResult pm ofmap) b = c ∧
    ∀ i, i ≠ c → ((resolveResult pm ofmap).hmap i).testBit b = false := by
  obtain ⟨hchar, hmc, huniq, hasg, hcov, hlog, hargs⟩ :=
    resolveResult_spec pm ofmap hpm0 hpm16 hof
  have hcfb : c = ffs pm :=
    lowest_eq_ffs hpm0 (lt_trans hpm16 (by norm_num)) hc
  have hmem := (hchar (ffs pm) b).mpr
    (Or.inl ⟨rfl, isDuplicated_lt_32 hof hdup, Or.inl hdup⟩)
  refine ⟨by rw [hcfb]; exact (hasg b (ffs pm) hmem).1, ?_⟩
  intro i hi
  cases h : ((resolveResult pm ofmap).hmap i).testBit b
  · rfl
  · have : i = ffs pm := huniq b i (ffs pm) h hmem
    rw [← hcfb] at this
    exact absurd this hi

theorem claim4_amended_witness :
    (15 : Nat) ≠ 0 ∧ IsDuplicated 15 exampleHints 5 ∧ IsLowestAvailable 15 0 ∧
    (assignedChannel (resolveResult 15 exampleHints) 5 = 0 ∧
      ∀ i, i ≠ 0 → ((resolveResult 15 exampleHints).hmap i).testBit 5 = false) :=
  ⟨by decide, ⟨0, 1, by decide, by decide, by decide⟩, by decide,
    claim4_duplicated_gets_fallback 15 exampleHints (by decide) (by decide)
      exampleHints_lt 5 ⟨0, 1, by decide, by decide, by decide⟩ 0 (by decide)⟩

/-- C5: for every non-empty available set, every line that is claimed by
exactly one channel of the hint table, with that channel a member of the
available set, is resolved to exactly that channel. -/
theorem claim5_unique_claim_kept (pm : Nat) (ofmap : Nat → Nat)
    (hpm0 : pm ≠ 0) (hpm16 : pm < 16) (hof : ∀ i, ofmap i < 2 ^ 32)
    (b c : Nat) (hc4 : c < IOINTC_NUM_PARENT)
    (hclaim : (ofmap c).testBit b = true) (havail : pm.testBit c = true)
    (huniqcl : ∀ j, j < IOINTC_NUM_PARENT → (ofmap j).testBit b = true → j = c) :
    assignedChannel (resolveResult pm ofmap) b = c := by
  obtain ⟨hchar, hmc, huniq, hasg, hcov, hlog, hargs⟩ :=
    resolveResult_spec pm ofmap hpm0 hpm16 hof
  have hac : availClaims pm ofmap c b := ⟨hc4, havail, hclaim⟩
  have hnd : ¬IsDuplicated pm ofmap b := by
    rintro ⟨i, j, hij, hi, hj⟩
    exact hij ((huniqcl i hi.1 hi.2.2).trans (huniqcl j hj.1 hj.2.2).symm)
  have hmem := (hchar c b).mpr (Or.inr ⟨hac, hnd⟩)
  exact (hasg b c hmem).1

theorem claim5_witness :
    (15 : Nat) ≠ 0 ∧ (exampleHints 1).testBit 6 = true ∧
    (15 : Nat).testBit 1 = true ∧
    (∀ j, j < IOINTC_NUM_PARENT → (exampleHints j).testBit 6 = true → j = 1) ∧
    assignedChannel (resolveResult 15 exampleHints) 6 = 1 :=
  ⟨by decide, by decide, by decide, by decide,
    claim5_unique_claim_kept 15 exampleHints (by decide) (by decide)
      exampleHints_lt 6 1 (by decide) (by decide) (by decide) (by decide)⟩

/-- C6: `resolve` is idempotent.  Re-running it with the produced assignment
reinterpreted as a hint table (each line claimed by exactly its assigned
channel) and the same available set yields the same assignment, both as the
decoded channel and as the raw map-cache byte. -/
theorem claim6_idempotent (pm : Nat) (ofmap : Nat → Nat)
    (hpm0 : pm ≠ 0) (hpm16 : pm < 16) (hof : ∀ i, ofmap i < 2 ^ 32) :
    ∀ b, b < IOINTC_CHIP_IRQ →
      assignedChannel (resolveResult pm (reinterp (resolveResult pm ofmap))) b =
        assignedChannel (resolveResult pm ofmap) b ∧
      (resolveResult pm (reinterp (resolveResult pm ofmap))).mapCache b =
        (resolveResult pm ofmap).mapCache b := by
  obtain ⟨hchar, hmc, huniq, hasg, hcov, hlog, hargs⟩ :=
    resolveResult_spec pm ofmap hpm0 hpm16 hof
  obtain ⟨hchar2, hmc2, huniq2, hasg2, hcov2, hlog2, hargs2⟩ :=
    resolveResult_spec pm (reinterp (resolveResult pm ofmap)) hpm0 hpm16
      (fun i => reinterp_lt _ i)
  intro b hb
  obtain ⟨i, hi⟩ := hcov b hb
  obtain ⟨hai, htbi, hi4⟩ := hasg b i hi
  have hac2 : availClaims pm (reinterp (resolveResult pm ofmap)) i b :=
    ⟨hi4, htbi, (reinterp_testBit _ i b).mpr ⟨hb, hai⟩⟩
  have hnd2 : ¬IsDuplicated pm (reinterp (resolveResult pm ofmap)) b := by
    rintro ⟨c, c', hne, hc, hc'⟩
    have h1 := ((reinterp_testBit _ c b).mp hc.2.2).2
    have h2 := ((reinterp_testBit _ c' b).mp hc'.2.2).2
    exact hne (h1.symm.trans h2)
  have hmem2 := (hchar2 i b).mpr (Or.inr ⟨hac2, hnd2⟩)
  constructor
  · rw [(hasg2 b i hmem2).1, hai]
  · rw [hmc2 b i hmem2, hmc b i hi]

theorem claim6_witness :
    (15 : Nat) ≠ 0 ∧
    assignedChannel
        (resolveResult 15 (reinterp (resolveResult 15 exampleHints))) 5 =
      assignedChannel (resolveResult 15 exampleHints) 5 ∧
    (resolveResult 15 (reinterp (resolveResult 15 exampleHints))).mapCache 5 =
      (resolveResult 15 exampleHints).mapCache 5 :=
  ⟨by decide,
    (claim6_idempotent 15 exampleHints (by decide) (by decide) exampleHints_lt
      5 (by decide)).1,
    (claim6_idempotent 15 exampleHints (by decide) (by decide) exampleHints_lt
      5 (by decide)).2⟩

/-- C7: each line's resolved channel depends only on that line's own claim
state.  Two hint tables that agree, for each available channel, on whether
that channel claims line `L` are resolved to the same channel at `L`. -/
theorem claim7_per_line_agreement (pm : Nat) (ofA ofB : Nat → Nat)
    (hpm0 : pm ≠ 0) (hpm16 : pm < 16)
    (hofA : ∀ i, ofA i < 2 ^ 32) (hofB : ∀ i, ofB i < 2 ^ 32)
    (L : Nat) (hL : L < IOINTC_CHIP_IRQ)
    (hagree : ∀ c, c < IOINTC_NUM_PARENT → pm.testBit c = true →
      (ofA c).testBit L = (ofB c).testBit L) :
    assignedChannel (resolveResult pm ofA) L =
      assignedChannel (resolveResult pm ofB) L := by
  obtain ⟨hcharA, hmcA, huniqA, hasgA, hcovA, hlogA, hargsA⟩ :=
    resolveResult_spec pm ofA hpm0 hpm16 hofA
  obtain ⟨hcharB, hmcB, huniqB, hasgB, hcovB, hlogB, hargsB⟩ :=
    resolveResult_spec pm ofB hpm0 hpm16 hofB
  have hacEq : ∀ c, availClaims pm ofA c L ↔ availClaims pm ofB c L := by
    intro c
    constructor
    · rintro ⟨h1, h2, h3⟩
      refine ⟨h1, h2, ?_⟩
      rw [← hagree c h1 h2]
      exact h3
    · rintro ⟨h1, h2, h3⟩
      refine ⟨h1, h2, ?_⟩
      rw [hagree c h1 h2]
      exact h3
  have hdupEq : IsDuplicated pm ofA L ↔ IsDuplicated pm ofB L := by
    constructor <;> rintro ⟨c, c', hne, hc, hc'⟩
    · exact ⟨c, c', hne, (hacEq c).mp hc, (hacEq c').mp hc'⟩
    · exact ⟨c, c', hne, (hacEq c).mpr hc, (hacEq c').mpr hc'⟩
  obtain ⟨i, hi⟩ := hcovA L hL
  rcases (hcharA i L).mp hi with ⟨hie, hb32, hcase⟩ | ⟨hac, hnd⟩
  · have hcaseB : IsDuplicated pm ofB L ∨ ¬∃ c, availClaims pm ofB c L := by
      rcases hcase with h | h
      · exact Or.inl (hdupEq.mp h)
      · exact Or.inr (fun ⟨c, hc⟩ => h ⟨c, (hacEq c).mpr hc⟩)
    have hmemB := (hcharB (ffs pm) L).mpr (Or.inl ⟨rfl, hb32, hcaseB⟩)
    rw [(hasgA L i hi).1, (hasgB L (ffs pm) hmemB).1, hie]
  · have hmemB := (hcharB i L).mpr
      (Or.inr ⟨(hacEq i).mp hac, fun h => hnd (hdupEq.mpr h)⟩)
    rw [(hasgA L i hi).1, (hasgB L i hmemB).1]

theorem claim7_witness :
    (15 : Nat) ≠ 0 ∧
    (∀ c, c < IOINTC_NUM_PARENT → (15 : Nat).testBit c = true →
      (exampleHints c).testBit 6 = (variantHints c).testBit 6) ∧
    assignedChannel (resolveResult 15 exampleHints) 6 =
      assignedChannel (resolveResult 15 variantHints) 6 :=
  ⟨by decide, by decide,
    claim7_per_line_agreement 15 exampleHints variantHints (by decide)
      (by decide) exampleHints_lt variantHints_lt 6 (by decide) (by decide)⟩

/-- C8: the diagnostics of a run are exactly one warning per homeless line
and one per duplicated line, each naming that line and the chosen fallback
channel (the lowest-numbered available channel), and nothing else. -/
theorem claim8_diagnostics (pm : Nat) (ofmap : Nat → Nat)
    (hpm0 : pm ≠ 0) (hpm16 : pm < 16) (hof : ∀ i, ofmap i < 2 ^ 32) :
    IsLowestAvailable pm (ffs pm) ∧
    (∀ b, IsHomeless pm ofmap b →
      (resolveResult pm ofmap).log.count (Event.homelessWarn b (ffs pm)) = 1) ∧
    (∀ b, IsDuplicated pm ofmap b →
      (resolveResult pm ofmap).log.count
        (Event.multiParentWarn b (ffs pm)) = 1) ∧
    (∀ e ∈ (resolveResult pm ofmap).log,
      (∃ b, IsHomeless pm ofmap b ∧ e = Event.homelessWarn b (ffs pm)) ∨
      (∃ b, IsDuplicated pm ofmap b ∧ e = Event.multiParentWarn b (ffs pm))) := by
  obtain ⟨hchar, hmc, huniq, hasg, hcov, hlog, hargs⟩ :=
    resolveResult_spec pm ofmap hpm0 hpm16 hof
  have hpm32 : pm < 2 ^ 32 := lt_trans hpm16 (by norm_num)
  obtain ⟨htb, h32, hmin⟩ := ffs_spec hpm0 hpm32
  have hinjH : Function.Injective (fun b => Event.homelessWarn b (ffs pm)) := by
    intro a a' h
    simpa using h
  have hinjD : Function.Injective (fun b => Event.multiParentWarn b (ffs pm)) := by
    intro a a' h
    simpa using h
  refine ⟨⟨htb, fun j hj => hmin j hj⟩, ?_, ?_, ?_⟩
  · intro b hbH
    rw [hlog, List.count_append]
    have h1 : ((bitsOf (compl32 (setupMaps pm ofmap).2.2)).map
        (fun b => Event.homelessWarn b (ffs pm))).count
          (Event.homelessWarn b (ffs pm)) = 1 := by
      rw [List.count_map_of_injective _ _ hinjH]
      exact List.count_eq_one_of_mem (bitsOf_nodup _)
        ((mem_bitsOf_homeless hof).mpr hbH)
    have h2 : ((bitsOf (setupMaps pm ofmap).2.1).map
        (fun b => Event.multiParentWarn b (ffs pm))).count
          (Event.homelessWarn b (ffs pm)) = 0 := by
      rw [List.count_eq_zero]
      intro hmem
      obtain ⟨a, _, ha⟩ := List.mem_map.mp hmem
      exact Event.noConfusion ha
    rw [h1, h2]
  · intro b hbD
    rw [hlog, List.count_append]
    have h1 : ((bitsOf (compl32 (setupMaps pm ofmap).2.2)).map
        (fun b => Event.homelessWarn b (ffs pm))).count
          (Event.multiParentWarn b (ffs pm)) = 0 := by
      rw [List.count_eq_zero]
      intro hmem
      obtain ⟨a, _, ha⟩ := List.mem_map.mp hmem
      exact Event.noConfusion ha
    have h2 : ((bitsOf (setupMaps pm ofmap).2.1).map
        (fun b => Event.multiParentWarn b (ffs pm))).count
          (Event.multiParentWarn b (ffs pm)) = 1 := by
      rw [List.count_map_of_injective _ _ hinjD]
      exact List.count_eq_one_of_mem (bitsOf_nodup _)
        ((mem_bitsOf_dup hof).mpr hbD)
    rw [h1, h2]
  · intro e he
    rw [hlog] at he
    rcases List.mem_append.mp he with h | h
    · obtain ⟨a, ha, hae⟩ := List.mem_map.mp h
      exact Or.inl ⟨a, (mem_bitsOf_homeless hof).mp ha, hae.symm⟩
    · obtain ⟨a, ha, hae⟩ := List.mem_map.mp h
      exact Or.inr ⟨a, (mem_bitsOf_dup hof).mp ha, hae.symm⟩

theorem claim8_witness :
    (15 : Nat) ≠ 0 ∧ (15 : Nat) < 16 ∧
    (IsLowestAvailable 15 (ffs 15) ∧
    (∀ b, IsHomeless 15 exampleHints b →
      (resolveResult 15 exampleHints).log.count
        (Event.homelessWarn b (ffs 15)) = 1) ∧
    (∀ b, IsDuplicated 15 exampleHints b →
      (resolveResult 15 exampleHints).log.count
        (Event.multiParentWarn b (ffs 15)) = 1) ∧
    (∀ e ∈ (resolveResult 15 exampleHints).log,
      (∃ b, IsHomeless 15 exampleHints b ∧
        e = Event.homelessWarn b (ffs 15)) ∨
      (∃ b, IsDuplicated 15 exampleHints b ∧
        e = Event.multiParentWarn b (ffs 15)))) :=
  ⟨by decide, by decide,
    claim8_diagnostics 15 exampleHints (by decide) (by decide) exampleHints_lt⟩

/-- C9: for every input with a non-empty available set, `resolve`
terminates: the whole bounded-fuel run of `validate_parent_mask` completes
(returning `some`), and each individual loop completes within 32 iterations
on any in-range mask, since each iteration strictly shrinks its bitset. -/
theorem claim9_terminates (pm : Nat) (ofmap : Nat → Nat)
    (hpm0 : pm ≠ 0) (hpm16 : pm < 16) (hof : ∀ i, ofmap i < 2 ^ 32) :
    validateParentMask pm ofmap = some (resolveResult pm ofmap) ∧
    (∀ fb proceed s, proceed < 2 ^ 32 →
      ∃ s', homelessLoop fb 32 proceed s = some s') ∧
    (∀ fb dup s, fb < IOINTC_NUM_PARENT → dup < 2 ^ 32 →
      (∀ i, s.hmap i < 2 ^ 32) →
      ∃ s', duplicatedLoop fb 32 dup s = some s') ∧
    (∀ i pending s, pending < 2 ^ 32 →
      ∃ s', materializeInner i 32 pending s = some s') := by
  refine ⟨validateParentMask_eq_some pm ofmap hpm0 hpm16 hof, ?_, ?_, ?_⟩
  · intro fb proceed s hp
    obtain ⟨s', h, _⟩ := homelessLoop_eq fb 32 proceed s hp (bitsOf_length_le _)
    exact ⟨s', h⟩
  · intro fb dup s hfb hd hh
    obtain ⟨s', h, _⟩ :=
      duplicatedLoop_eq fb hfb 32 dup s hd (bitsOf_length_le _) hh
    exact ⟨s', h⟩
  · intro i pending s hp
    obtain ⟨s', h, _⟩ := materializeInner_eq i 32 pending s hp (bitsOf_length_le _)
    exact ⟨s', h⟩

theorem claim9_witness :
    (15 : Nat) ≠ 0 ∧ (15 : Nat) < 16 ∧
    validateParentMask 15 exampleHints = some (resolveResult 15 exampleHints) :=
  ⟨by decide, by decide,
    (claim9_terminates 15 exampleHints (by decide) (by decide)
      exampleHints_lt).1⟩

/-- C10: under the caller's precondition that the available-parent mask is
non-zero, every argument handed to the bit-scan primitive `__ffs` during
`validate_parent_mask` (all of which are recorded in the `ffsArgs` trace:
the fallback computation on the availability mask, and each loop's
guard-checked mask) is non-zero, so the undefined-behaviour case `__ffs(0)`
is unreachable. -/
theorem claim10_ffs_never_zero (pm : Nat) (ofmap : Nat → Nat)
    (hpm0 : pm ≠ 0) (hpm16 : pm < 16) (hof : ∀ i, ofmap i < 2 ^ 32) :
    ∀ x ∈ (resolveResult pm ofmap).ffsArgs, x ≠ 0 := by
  obtain ⟨hchar, hmc, huniq, hasg, hcov, hlog, hargs⟩ :=
    resolveResult_spec pm ofmap hpm0 hpm16 hof
  exact hargs

theorem claim10_witness :
    (15 : Nat) ≠ 0 ∧ (15 : Nat) < 16 ∧
    (∀ x ∈ (resolveResult 15 exampleHints).ffsArgs, x ≠ 0) :=
  ⟨by decide, by decide,
    claim10_ffs_never_zero 15 exampleHints (by decide) (by decide)
      exampleHints_lt⟩

end Loongson
